import Mathlib

/-!
Verification development for the stream-polyglot audio pipeline.

Shallow embedding of:
- `AudioTimeline.segment_with_timeline` (src/audio_timeline.py): chunked VAD
  segmentation with carry-over of incomplete fragments;
- `load_timeline_cache` (src/main.py): timeline cache loading;
- `SpeakerClusterer._cluster_with_resemblyzer`, `select_reference_for_segment`,
  `assign_speaker_to_segment` (src/speaker_clustering.py).

Times are modelled as rationals (the source uses float seconds).  The
voice-activity oracle is modelled as a function from a window's absolute start
and length to the list of detected relative intervals, which makes the
segmentation loop a deterministic function of the oracle, as the spec demands.
-/

/-- A speech interval.  `start`/`stop` model the source's `start`/`end` keys
(`end` is a reserved word in Lean). -/
structure Iv where
  start : ℚ
  stop : ℚ
deriving DecidableEq, Repr

/-- Shift every interval of a VAD response by the chunk start, as in
`seg["start"] += chunk_start; seg["end"] += chunk_start`. -/
def absShift (cs : ℚ) (l : List Iv) : List Iv :=
  l.map (fun s => ⟨s.start + cs, s.stop + cs⟩)

/-- The carry-over handling at the top of the chunk loop
(src/audio_timeline.py lines 233-257).  Given the pending buffer and the
window's (already absolute-shifted) segments, returns the list of fragments
flushed ahead of the window (`pre`) and the adjusted segment list.  A merge
(`speech_segments[0]["start"] - chunk_start < 0.5`) replaces the first segment
by the extended buffer; otherwise the buffer is flushed as a fragment of its
own. -/
def handleCarry (cs : ℚ) (buf : Option Iv) (segs : List Iv) : List Iv × List Iv :=
  match buf with
  | none => ([], segs)
  | some b =>
    match segs with
    | [] => ([b], [])
    | s0 :: rest =>
      if s0.start - cs < 1/2 then ([], ⟨b.start, s0.stop⟩ :: rest)
      else ([b], s0 :: rest)

/-- Result of processing one chunk: fragments emitted in this iteration, the
new pending buffer, and the computed next window start (before the loop's
safety valve). -/
structure StepOut where
  em : List Iv
  buf : Option Iv
  next : ℚ
deriving DecidableEq, Repr

/-- The incomplete-segment deferral at the bottom of the chunk loop
(src/audio_timeline.py lines 259-290): the last segment is buffered iff it
ends within 0.1 s of `chunk_end` (`is_incomplete_segment`) and
`chunk_end < total_duration - 0.05`; a buffered segment is dropped from the
emitted list and the next window starts at its own start. -/
def finishChunk (total ce : ℚ) (pre segs : List Iv) : StepOut :=
  match segs.getLast? with
  | some lastSeg =>
    if |lastSeg.stop - ce| < 1/10 ∧ ¬ (ce ≥ total - 1/20) then
      ⟨pre ++ segs.dropLast, some lastSeg, lastSeg.start⟩
    else ⟨pre ++ segs, none, ce⟩
  | none => ⟨pre, none, ce⟩

/-- One iteration of the `while current_time < total_duration` loop of
`segment_with_timeline`, for the window starting at `cs`. -/
def stepChunk (vad : ℚ → ℚ → List Iv) (total dur cs : ℚ) (buf : Option Iv) : StepOut :=
  let ce := min (cs + dur) total
  let segs := absShift cs (vad cs (ce - cs))
  let pr := handleCarry cs buf segs
  finishChunk total ce pr.1 pr.2

/-- The safety valve (src/audio_timeline.py lines 295-298): after
`current_time = next_chunk_start`, advance by one second when
`next_chunk_start == chunk_start`. -/
def forceAdvance (cs next : ℚ) : ℚ :=
  if next = cs then cs + 1 else next

/-- Final flush of the pending buffer after the loop
(src/audio_timeline.py lines 300-314). -/
def flushBuf : Option Iv → List Iv
  | none => []
  | some b => [b]

/-- The chunk loop of `segment_with_timeline`, made total with fuel:
`none` means the fuel ran out while `current_time < total_duration` (the
source loop would still be running). -/
def runAux (vad : ℚ → ℚ → List Iv) (total dur : ℚ) :
    Nat → ℚ → Option Iv → List Iv → Option (List Iv)
  | 0, cs, buf, acc =>
    if cs < total then none else some (acc ++ flushBuf buf)
  | fuel + 1, cs, buf, acc =>
    if cs < total then
      let o := stepChunk vad total dur cs buf
      runAux vad total dur fuel (forceAdvance cs o.next) o.buf (acc ++ o.em)
    else some (acc ++ flushBuf buf)

/-- `segment_with_timeline` for a recording of duration `total`, processed in
chunks of `dur` seconds, against the given VAD oracle. -/
def segmentRun (vad : ℚ → ℚ → List Iv) (total dur : ℚ) (fuel : Nat) : Option (List Iv) :=
  runAux vad total dur fuel 0 none []

/-- Fragments sorted by `start`. -/
def sortedByStart (l : List Iv) : Prop :=
  List.Pairwise (fun a b => a.start ≤ b.start) l

/-- Two fragments whose `[start, stop)` intervals do not overlap. -/
def nonOverlap (a b : Iv) : Prop :=
  a.stop ≤ b.start ∨ b.stop ≤ a.start

/-- Pairwise non-overlap of a timeline. -/
def pairwiseNonOverlap (l : List Iv) : Prop :=
  List.Pairwise nonOverlap l

/-- The oracle contract of spec section 6: each response is an ordered list of
disjoint intervals lying inside the queried window, each with `end > start`. -/
def VadOk (vad : ℚ → ℚ → List Iv) : Prop :=
  ∀ cs len,
    (∀ iv ∈ vad cs len, 0 ≤ iv.start ∧ iv.start < iv.stop ∧ iv.stop ≤ len) ∧
      List.Pairwise (fun a b => a.stop ≤ b.start) (vad cs len)

/-- A VAD oracle exhibiting overlapping output fragments: the window at 0
ends with an interval finishing 0.05 s before the chunk boundary (deferred),
and the rewound window at 25 re-detects speech starting 0.6 s into the window,
so the flushed buffer `[25, 29.95)` overlaps the fragment `[25.6, 40)`. -/
def c1vad : ℚ → ℚ → List Iv := fun cs len =>
  if cs = 0 ∧ len = 30 then [⟨10, 20⟩, ⟨25, 599/20⟩]
  else if cs = 25 ∧ len = 30 then [⟨3/5, 15⟩] else []

/-- A VAD oracle reporting the whole window as speech on every call (a fully
voiced recording). -/
def fullVad : ℚ → ℚ → List Iv := fun _ len => [⟨0, len⟩]

/-- The silent oracle. -/
def vadNil : ℚ → ℚ → List Iv := fun _ _ => []

/-- The loop-state invariant used to prove that emitted fragments stay sorted:
emitted starts are sorted, bounded by the current position, and bounded by the
pending buffer's start. -/
def StInv (cs : ℚ) (buf : Option Iv) (acc : List Iv) : Prop :=
  sortedByStart acc ∧ (∀ f ∈ acc, f.start ≤ cs) ∧
    ∀ b, buf = some b → (∀ f ∈ acc, f.start ≤ b.start) ∧ b.start ≤ cs

/-! Timeline cache (`load_timeline_cache` in src/main.py). -/

/-- A fragment record of the cached timeline (`{id, file, start, end}`). -/
structure Fragment where
  id : Nat
  file : String
  start : ℚ
  stop : ℚ
deriving DecidableEq, Repr

/-- The parsed content of `timeline.json`: the `timeline` list, the opaque
`metadata`, and the recorded `fragments_dir`. -/
structure CacheData where
  timeline : List Fragment
  metaInfo : String
  fragmentsDir : String
deriving DecidableEq

/-- The filesystem as seen by `load_timeline_cache`: whether `timeline.json`
exists, what parsing it yields (`none` models `json.load` raising), and which
paths exist. -/
structure CacheFS where
  cacheFileExists : Bool
  parsed : Option CacheData
  pathExists : String → Bool

/-- Path of a fragment file inside the fragments directory
(`os.path.join(fragments_dir, fragment['file'])`). -/
def fragPath (dir file : String) : String := dir ++ "/" ++ file

/-- Body of the `try:` block of `load_timeline_cache`
(src/main.py lines 634-651); `Except.error` models an exception escaping the
block (it is caught by the caller below). -/
def loadBody (fs : CacheFS) : Except Unit (Option (List Fragment × String)) :=
  match fs.parsed with
  | none => Except.error ()
  | some cd =>
    if cd.fragmentsDir = "" then Except.ok none
    else if ¬ fs.pathExists cd.fragmentsDir then Except.ok none
    else if cd.timeline.all (fun f => fs.pathExists (fragPath cd.fragmentsDir f.file)) then
      Except.ok (some (cd.timeline, cd.metaInfo))
    else Except.ok none

/-- `load_timeline_cache` (src/main.py lines 626-654): returns `none` when the
cache file is absent, and converts any exception of the body into `none`. -/
def load_timeline_cache (fs : CacheFS) : Option (List Fragment × String) :=
  if fs.cacheFileExists then
    match loadBody fs with
    | Except.ok r => r
    | Except.error _ => none
  else none

/-! Speaker clustering (`_cluster_with_resemblyzer` in
src/speaker_clustering.py). -/

/-- Fragment info stored per cluster member
(`{fragment_id, file, start, end, duration}`). -/
structure FragInfo where
  fragment_id : Nat
  file : String
  start : ℚ
  stop : ℚ
  duration : ℚ
deriving DecidableEq, Repr

/-- The info dict built for a surviving fragment
(src/speaker_clustering.py lines 116-125). -/
def mkFragInfo (f : Fragment) : FragInfo :=
  ⟨f.id, f.file, f.start, f.stop, f.stop - f.start⟩

/-- The embedding-extraction loop (src/speaker_clustering.py lines 96-129):
skip a fragment when its file is missing, when the preprocessed audio is
shorter than 6400 samples (0.4 s at 16 kHz), or when embedding extraction
throws (`embedOk` false); otherwise keep its info.  `wavLen file = none`
models `preprocess_wav` raising. -/
def collectValid (fragExists : String → Bool) (wavLen : String → Option Nat)
    (embedOk : String → Bool) (timeline : List Fragment) : List FragInfo :=
  timeline.filterMap (fun frag =>
    if fragExists frag.file then
      match wavLen frag.file with
      | some n =>
        if n < 6400 then none
        else if embedOk frag.file then some (mkFragInfo frag) else none
      | none => none
    else none)

/-- The fragments grouped under cluster label `k`
(`speaker_clusters[speaker_id].append(valid_fragments[idx])`): the members of
`valid` whose index has label `k`, in order. -/
def clusterOfAux (lab : Nat → Nat) (k : Nat) : Nat → List FragInfo → List FragInfo
  | _, [] => []
  | i, fi :: rest =>
    if lab i = k then fi :: clusterOfAux lab k (i + 1) rest
    else clusterOfAux lab k (i + 1) rest

/-- See `clusterOfAux`. -/
def clusterOf (lab : Nat → Nat) (valid : List FragInfo) (k : Nat) : List FragInfo :=
  clusterOfAux lab k 0 valid

/-- The speaker-clusters mapping keyed by the labels that occur, in first
occurrence order (Python dicts preserve insertion order). -/
def speakerClustersModel (lab : Nat → Nat) (valid : List FragInfo) :
    List (Nat × List FragInfo) :=
  ((List.range valid.length).map lab).dedup.map (fun k => (k, clusterOf lab valid k))

/-- `_cluster_with_resemblyzer`: `none` models the
`RuntimeError("No valid fragments for clustering")` raised when no fragment
survives the filtering loop; `lab` is the label assignment returned by the
clustering library for the surviving fragments. -/
def cluster_fragments (fragExists : String → Bool) (wavLen : String → Option Nat)
    (embedOk : String → Bool) (lab : Nat → Nat) (timeline : List Fragment) :
    Option (List (Nat × List FragInfo)) :=
  let valid := collectValid fragExists wavLen embedOk timeline
  if valid.isEmpty then none else some (speakerClustersModel lab valid)

/-! Agglomerative clustering with average linkage and a distance threshold.

Modelled from the spec: the clustering computation itself lives in the
external sklearn library (`AgglomerativeClustering(n_clusters=None,
distance_threshold=1 - threshold, metric='cosine', linkage='average')`), not
in this repository; following spec section 4.3 it is modelled here as greedy
merging of the closest pair (average linkage over a fixed pairwise distance
matrix `d` of the embedding set) that stops once the closest remaining pair's
distance reaches the threshold. -/

/-- Sum of all pairwise distances between two clusters of base points. -/
def sumDist (d : Nat → Nat → ℚ) (A B : List Nat) : ℚ :=
  (A.map (fun a => (B.map (fun b => d a b)).sum)).sum

/-- Average-linkage distance between two clusters. -/
def avgLink (d : Nat → Nat → ℚ) (A B : List Nat) : ℚ :=
  sumDist d A B / (A.length * B.length)

/-- All index pairs `(i, j)` with `i < j < n`. -/
def allPairs (n : Nat) : List (Nat × Nat) :=
  ((List.range n).map (fun i =>
    (List.range n).filterMap (fun j => if i < j then some (i, j) else none))).flatten

/-- The closest pair of current clusters (first minimiser), with its
average-linkage distance. -/
def minPair (d : Nat → Nat → ℚ) (cs : List (List Nat)) : Option (ℚ × Nat × Nat) :=
  (allPairs cs.length).foldl (fun acc p =>
    let dist := avgLink d ((cs[p.1]?).getD []) ((cs[p.2]?).getD [])
    match acc with
    | none => some (dist, p.1, p.2)
    | some best => if dist < best.1 then some (dist, p.1, p.2) else acc) none

/-- Merge clusters at positions `i` and `j`. -/
def mergeAt (cs : List (List Nat)) (i j : Nat) : List (List Nat) :=
  (cs.set i (((cs[i]?).getD []) ++ ((cs[j]?).getD []))).eraseIdx j

/-- Greedy agglomerative merging: merge the closest pair while its distance is
below the distance threshold `t`. -/
def agRun (d : Nat → Nat → ℚ) (t : ℚ) : Nat → List (List Nat) → List (List Nat)
  | 0, cs => cs
  | fuel + 1, cs =>
    match minPair d cs with
    | none => cs
    | some best =>
      if best.1 < t then agRun d t fuel (mergeAt cs best.2.1 best.2.2) else cs

/-- The initial singleton clusters of an embedding set of size `n`. -/
def initClusters (n : Nat) : List (List Nat) :=
  (List.range n).map (fun i => [i])

/-- Number of clusters produced for an embedding set with pairwise distance
matrix `d`, under similarity threshold `simThreshold`
(`distance_threshold = 1 - similarity_threshold`). -/
def nClusters (d : Nat → Nat → ℚ) (n : Nat) (simThreshold : ℚ) (fuel : Nat) : Nat :=
  (agRun d (1 - simThreshold) fuel (initClusters n)).length

/-- A two-point embedding set at cosine distance 0.3. -/
def dPair : Nat → Nat → ℚ := fun _ _ => 3/10

/-! Reference selection (`select_reference_for_segment` and
`assign_speaker_to_segment` in src/speaker_clustering.py). -/

/-- The per-fragment score used both by `assign_speaker_to_segment` and by the
anchor search of `select_reference_for_segment`: temporal overlap with the
query window plus a bonus of 10 when the fragment spans the window midpoint. -/
def overlapScore (segStart segEnd segMid : ℚ) (f : FragInfo) : ℚ :=
  max 0 (min segEnd f.stop - max segStart f.start) +
    (if f.start ≤ segMid ∧ segMid ≤ f.stop then 10 else 0)

/-- Total score of one speaker's fragment list. -/
def speakerScore (segStart segEnd segMid : ℚ) (frags : List FragInfo) : ℚ :=
  (frags.map (overlapScore segStart segEnd segMid)).sum

/-- The strict-improvement best-candidate fold shared by
`assign_speaker_to_segment` (over speakers) and the anchor search (over
fragments): starting from `(None, 0.0)`, a candidate replaces the current best
exactly when its score is strictly greater. -/
def bestFold {α β : Type} (score : α → ℚ) (tag : α → β) (l : List α)
    (st : Option β × ℚ) : Option β × ℚ :=
  l.foldl (fun st x => if score x > st.2 then (some (tag x), score x) else st) st

/-- `assign_speaker_to_segment` (src/speaker_clustering.py lines 367-412). -/
def assign_speaker_to_segment (segStart segEnd : ℚ)
    (clusters : List (String × List FragInfo)) : Option String :=
  (bestFold (fun p => speakerScore segStart segEnd ((segStart + segEnd) / 2) p.2)
    Prod.fst clusters (none, 0)).1

/-- Step 2 of `select_reference_for_segment`: the matching (anchor) fragment
and its score (src/speaker_clustering.py lines 299-318). -/
def findAnchor (segStart segEnd segMid : ℚ) (cluster : List FragInfo) :
    Option FragInfo × ℚ :=
  bestFold (overlapScore segStart segEnd segMid) id cluster (none, 0)

/-- Python dict access `speaker_clusters[speaker_id]` (first binding). -/
def lookupCluster (s : String) : List (String × List FragInfo) → Option (List FragInfo)
  | [] => none
  | p :: rest => if p.1 = s then some p.2 else lookupCluster s rest

/-- Midpoint of a fragment, `(f['start'] + f['end']) / 2`. -/
def midOf (f : FragInfo) : ℚ := (f.start + f.stop) / 2

/-- Stable insertion into a list sorted by `key`. -/
def insertByKey (key : FragInfo → ℚ) (f : FragInfo) : List FragInfo → List FragInfo
  | [] => [f]
  | g :: rest => if key f < key g then f :: g :: rest else g :: insertByKey key f rest

/-- Stable sort by `key`, modelling Python `sorted(..., key=...)` and
`list.sort(key=...)`. -/
def sortByKey (key : FragInfo → ℚ) : List FragInfo → List FragInfo
  | [] => []
  | f :: rest => insertByKey key f (sortByKey key rest)

/-- The greedy nearest-fragment accumulation of Case 2
(src/speaker_clustering.py lines 342-357): skip the anchor, stop once the
total reaches `targetD`, skip fragments that would push the total past
`targetD * 1.5`, and stop as soon as the total reaches `minD`. -/
def greedyAdd (minD targetD : ℚ) (anchor : FragInfo) :
    List FragInfo → List FragInfo × ℚ → List FragInfo × ℚ
  | [], st => st
  | f :: rest, st =>
    if f = anchor then greedyAdd minD targetD anchor rest st
    else if st.2 ≥ targetD then st
    else if st.2 + f.duration > targetD * (3/2) then greedyAdd minD targetD anchor rest st
    else if st.2 + f.duration ≥ minD then (st.1 ++ [f], st.2 + f.duration)
    else greedyAdd minD targetD anchor rest (st.1 ++ [f], st.2 + f.duration)

/-- `select_reference_for_segment` (src/speaker_clustering.py lines 262-365). -/
def select_reference_for_segment (segStart segEnd : ℚ)
    (clusters : List (String × List FragInfo)) (minD targetD : ℚ) :
    Option String × List String × ℚ :=
  let segMid := (segStart + segEnd) / 2
  match assign_speaker_to_segment segStart segEnd clusters with
  | none => (none, [], 0)
  | some spk =>
    match lookupCluster spk clusters with
    | none => (none, [], 0)
    | some cluster =>
      match (findAnchor segStart segEnd segMid cluster).1 with
      | none => (some spk, [], 0)
      | some anchor =>
        if anchor.duration ≥ targetD then (some spk, [anchor.file], anchor.duration)
        else if anchor.duration < minD then
          let sorted := sortByKey (fun f => |midOf f - midOf anchor|) cluster
          let res := greedyAdd minD targetD anchor sorted ([anchor], anchor.duration)
          (some spk, (sortByKey (fun f => f.start) res.1).map (fun f => f.file), res.2)
        else (some spk, [anchor.file], anchor.duration)

/-- A filesystem with no cache file, used to instantiate theorems. -/
def fsMissing : CacheFS := ⟨false, none, fun _ => false⟩

/-- A concrete 2-second fragment, used to instantiate theorems. -/
def fragA : FragInfo := ⟨0, "a", 0, 2, 2⟩

/-- A concrete 4-second fragment, used to instantiate theorems. -/
def fragB : FragInfo := ⟨1, "b", 3, 7, 4⟩

/-- A concrete one-speaker cluster mapping, used to instantiate theorems. -/
def clusters0 : List (String × List FragInfo) := [("speaker_0", [fragA, fragB])]

/-! Theorems. -/

/-- Claim C5: `load_timeline_cache` returns none whenever the cache file is
absent, the parse fails (never raising to the caller), the recorded fragments
directory is missing (or empty), or any referenced fragment file does not
exist; and it returns a timeline only when every referenced fragment file
exists. -/
theorem c5_load_cache_validates (fs : CacheFS) :
    (fs.cacheFileExists = false → load_timeline_cache fs = none) ∧
    (fs.parsed = none → load_timeline_cache fs = none) ∧
    (∀ cd, fs.parsed = some cd →
      (cd.fragmentsDir = "" ∨ fs.pathExists cd.fragmentsDir = false) →
      load_timeline_cache fs = none) ∧
    (∀ cd f, fs.parsed = some cd → f ∈ cd.timeline →
      fs.pathExists (fragPath cd.fragmentsDir f.file) = false →
      load_timeline_cache fs = none) ∧
    (∀ tl md, load_timeline_cache fs = some (tl, md) →
      ∃ cd, fs.parsed = some cd ∧ tl = cd.timeline ∧
        ∀ f ∈ tl, fs.pathExists (fragPath cd.fragmentsDir f.file) = true) := by
  refine ⟨?_, ?_, ?_, ?_, ?_⟩
  · intro h
    simp [load_timeline_cache, h]
  · intro h
    cases hcf : fs.cacheFileExists <;> simp [load_timeline_cache, loadBody, h, hcf]
  · intro cd hcd hbad
    cases hcf : fs.cacheFileExists with
    | false => simp [load_timeline_cache, hcf]
    | true =>
      rcases hbad with hd | hp
      · simp [load_timeline_cache, loadBody, hcd, hcf, hd]
      · by_cases hd : cd.fragmentsDir = "" <;>
          simp [load_timeline_cache, loadBody, hcd, hcf, hd, hp]
  · intro cd f hcd hf hmiss
    cases hcf : fs.cacheFileExists with
    | false => simp [load_timeline_cache, hcf]
    | true =>
      have hall : ¬ (cd.timeline.all
          (fun g => fs.pathExists (fragPath cd.fragmentsDir g.file)) = true) := by
        rw [List.all_eq_true]
        push_neg
        exact ⟨f, hf, by simp [hmiss]⟩
      by_cases hd : cd.fragmentsDir = ""
      · simp [load_timeline_cache, loadBody, hcd, hcf, hd]
      · by_cases hp : fs.pathExists cd.fragmentsDir <;>
          simp [load_timeline_cache, loadBody, hcd, hcf, hd, hp, hall]
  · intro tl md h
    cases hcf : fs.cacheFileExists with
    | false => simp [load_timeline_cache, hcf] at h
    | true =>
      cases hp : fs.parsed with
      | none => simp [load_timeline_cache, loadBody, hcf, hp] at h
      | some cd =>
        by_cases hd : cd.fragmentsDir = ""
        · simp [load_timeline_cache, loadBody, hcf, hp, hd] at h
        · by_cases hpe : fs.pathExists cd.fragmentsDir
          · by_cases hall : cd.timeline.all
                (fun g => fs.pathExists (fragPath cd.fragmentsDir g.file)) = true
            · refine ⟨cd, rfl, ?_, ?_⟩
              · simp [load_timeline_cache, loadBody, hcf, hp, hd, hpe, hall] at h
                exact h.1.symm
              · intro f hf
                have h2 : tl = cd.timeline := by
                  simp [load_timeline_cache, loadBody, hcf, hp, hd, hpe, hall] at h
                  exact h.1.symm
                exact List.all_eq_true.mp hall f (h2 ▸ hf)
            · simp [load_timeline_cache, loadBody, hcf, hp, hd, hpe, hall] at h
          · simp [load_timeline_cache, loadBody, hcf, hp, hd, hpe] at h

/-- Witness for C5: on a filesystem without a cache file the loader returns
none. -/
theorem c5_load_cache_validates_witness :
    fsMissing.cacheFileExists = false ∧ load_timeline_cache fsMissing = none :=
  ⟨rfl, (c5_load_cache_validates fsMissing).1 rfl⟩

/-- A merge never increases the number of clusters. -/
theorem mergeAt_length_le (cs : List (List Nat)) (i j : Nat) :
    (mergeAt cs i j).length ≤ cs.length := by
  unfold mergeAt
  calc ((cs.set i (((cs[i]?).getD []) ++ ((cs[j]?).getD []))).eraseIdx j).length
      ≤ (cs.set i (((cs[i]?).getD []) ++ ((cs[j]?).getD []))).length :=
        List.length_eraseIdx_le _ _
    _ = cs.length := List.length_set cs i _

/-- Agglomerative merging never increases the number of clusters. -/
theorem agRun_length_le (d : Nat → Nat → ℚ) (t : ℚ) :
    ∀ fuel cs, (agRun d t fuel cs).length ≤ cs.length := by
  intro fuel
  induction fuel with
  | zero => intro cs; simp [agRun]
  | succ n ih =>
    intro cs
    unfold agRun
    cases h : minPair d cs with
    | none => simp
    | some best =>
      by_cases hb : best.1 < t
      · simp only [hb, if_true]
        exact le_trans (ih (mergeAt cs best.2.1 best.2.2)) (mergeAt_length_le cs _ _)
      · simp [hb]

/-- Lowering the distance threshold can only stop merging earlier, so it never
lowers the cluster count. -/
theorem agRun_anti (d : Nat → Nat → ℚ) :
    ∀ fuel (t1 t2 : ℚ) cs, t1 ≤ t2 →
      (agRun d t2 fuel cs).length ≤ (agRun d t1 fuel cs).length := by
  intro fuel
  induction fuel with
  | zero => intro t1 t2 cs _; simp [agRun]
  | succ n ih =>
    intro t1 t2 cs ht
    unfold agRun
    cases h : minPair d cs with
    | none => simp
    | some best =>
      by_cases h1 : best.1 < t1
      · have h2 : best.1 < t2 := lt_of_lt_of_le h1 ht
        simp only [h1, h2, if_true]
        exact ih t1 t2 _ ht
      · simp only [h1, if_false]
        by_cases h2 : best.1 < t2
        · simp only [h2, if_true]
          exact le_trans (agRun_length_le d t2 n _) (mergeAt_length_le cs _ _)
        · simp [h2]

/-- Claim C7 (amended): for a fixed embedding set, a higher
`similarityThreshold` yields at least as many clusters as a lower one (the
distance threshold `1 - similarityThreshold` shrinks, so merging stops
earlier); merging stops once the closest remaining pair's distance reaches the
distance threshold. -/
theorem c7_cluster_count_monotone (d : Nat → Nat → ℚ) (n fuel : Nat) (s1 s2 : ℚ)
    (h : s1 ≤ s2) : nClusters d n s1 fuel ≤ nClusters d n s2 fuel :=
  agRun_anti d fuel (1 - s2) (1 - s1) (initClusters n) (by linarith)

/-- Counterexample for C7 as stated: on a two-point embedding set at cosine
distance 0.3, raising the similarity threshold from 0.65 to 0.75 raises the
cluster count from 1 to 2, so a higher threshold does not yield fewer (or
equally many) clusters. -/
theorem c7_counterexample :
    (13:ℚ)/20 ≤ 3/4 ∧ nClusters dPair 2 (13/20) 2 = 1 ∧
      nClusters dPair 2 (3/4) 2 = 2 ∧
      ¬ nClusters dPair 2 (3/4) 2 ≤ nClusters dPair 2 (13/20) 2 := by
  have h0 : initClusters 2 = [[0], [1]] := by norm_num [initClusters, List.range_succ]
  have hm : minPair dPair [[0], [1]] = some (3/10, 0, 1) := by
    norm_num [minPair, allPairs, avgLink, sumDist, dPair, List.range_succ,
      List.filterMap_cons, List.filterMap_nil, List.foldl_cons, List.foldl_nil]
  have hm2 : minPair dPair [[0, 1]] = none := by
    norm_num [minPair, allPairs, avgLink, sumDist, dPair, List.range_succ,
      List.filterMap_cons, List.filterMap_nil, List.foldl_cons, List.foldl_nil]
  have hmerge : mergeAt [[0], [1]] 0 1 = [[0, 1]] := by norm_num [mergeAt]
  have h1 : nClusters dPair 2 (13/20) 2 = 1 := by
    rw [nClusters, h0, agRun, hm]
    norm_num [hmerge, agRun, hm2]
  have h2 : nClusters dPair 2 (3/4) 2 = 2 := by
    rw [nClusters, h0, agRun, hm]
    norm_num
  exact ⟨by norm_num, h1, h2, by rw [h1, h2]; norm_num⟩

/-- Witness for C7: the monotone statement at the counterexample's thresholds. -/
theorem c7_cluster_count_monotone_witness :
    (13:ℚ)/20 ≤ 3/4 ∧ nClusters dPair 2 (13/20) 2 ≤ nClusters dPair 2 (3/4) 2 :=
  ⟨by norm_num, c7_cluster_count_monotone dPair 2 2 (13/20) (3/4) (by norm_num)⟩

/-- Membership in the surviving-fragment list: exactly the timeline fragments
whose file exists, whose preprocessed audio has at least 6400 samples, and
whose embedding extraction succeeds. -/
theorem mem_collectValid {fe : String → Bool} {wl : String → Option Nat}
    {eo : String → Bool} {tl : List Fragment} {fi : FragInfo} :
    fi ∈ collectValid fe wl eo tl ↔
      ∃ frag ∈ tl, fe frag.file = true ∧
        (∃ n, wl frag.file = some n ∧ ¬ n < 6400) ∧ eo frag.file = true ∧
        fi = mkFragInfo frag := by
  rw [collectValid, List.mem_filterMap]
  constructor
  · rintro ⟨frag, hfrag, heq⟩
    by_cases hfe : fe frag.file
    · cases hwl : wl frag.file with
      | none => simp [hfe, hwl] at heq
      | some n =>
        by_cases hn : n < 6400
        · simp [hfe, hwl, hn] at heq
        · by_cases heo : eo frag.file
          · simp [hfe, hwl, hn, heo] at heq
            exact ⟨frag, hfrag, hfe, ⟨n, hwl, hn⟩, heo, heq.symm⟩
          · simp [hfe, hwl, hn, heo] at heq
    · simp [hfe] at heq
  · rintro ⟨frag, hfrag, hfe, ⟨n, hwl, hn⟩, heo, heq⟩
    exact ⟨frag, hfrag, by simp [hfe, hwl, hn, heo, heq]⟩

/-- Cluster members come from the surviving list. -/
theorem clusterOfAux_subset (lab : Nat → Nat) (k : Nat) :
    ∀ i (l : List FragInfo), ∀ fi ∈ clusterOfAux lab k i l, fi ∈ l := by
  intro i l
  induction l generalizing i with
  | nil => intro fi h; simp [clusterOfAux] at h
  | cons g rest ih =>
    intro fi h
    by_cases hl : lab i = k
    · simp only [clusterOfAux, hl, if_true, List.mem_cons] at h
      rcases h with h | h
      · simp [h]
      · exact List.mem_cons_of_mem g (ih (i + 1) fi h)
    · simp only [clusterOfAux, hl, if_false] at h
      exact List.mem_cons_of_mem g (ih (i + 1) fi h)

/-- On a duplicate-free surviving list, a fragment is assigned to a single
label. -/
theorem clusterOfAux_inj (lab : Nat → Nat) (k1 k2 : Nat) {fi : FragInfo} :
    ∀ (l : List FragInfo) i, l.Nodup →
      fi ∈ clusterOfAux lab k1 i l → fi ∈ clusterOfAux lab k2 i l → k1 = k2 := by
  intro l
  induction l with
  | nil => intro i _ h; simp [clusterOfAux] at h
  | cons g rest ih =>
    intro i hnd h1 h2
    have hgrest : g ∉ rest := (List.nodup_cons.mp hnd).1
    have hrest : rest.Nodup := (List.nodup_cons.mp hnd).2
    by_cases he : fi = g
    · subst he
      by_cases hl1 : lab i = k1
      · by_cases hl2 : lab i = k2
        · rw [← hl1, hl2]
        · simp only [clusterOfAux, hl2, if_false] at h2
          exact absurd (clusterOfAux_subset lab k2 (i + 1) rest fi h2) hgrest
      · simp only [clusterOfAux, hl1, if_false] at h1
        exact absurd (clusterOfAux_subset lab k1 (i + 1) rest fi h1) hgrest
    · have h1' : fi ∈ clusterOfAux lab k1 (i + 1) rest := by
        by_cases hl1 : lab i = k1
        · simp only [clusterOfAux, hl1, if_true, List.mem_cons] at h1
          exact h1.resolve_left he
        · simpa only [clusterOfAux, hl1, if_false] using h1
      have h2' : fi ∈ clusterOfAux lab k2 (i + 1) rest := by
        by_cases hl2 : lab i = k2
        · simp only [clusterOfAux, hl2, if_true, List.mem_cons] at h2
          exact h2.resolve_left he
        · simpa only [clusterOfAux, hl2, if_false] using h2
      exact ih (i + 1) hrest h1' h2'

/-- The surviving fragments' ids form a sublist of the timeline's ids. -/
theorem collectValid_ids_sublist (fe : String → Bool) (wl : String → Option Nat)
    (eo : String → Bool) :
    ∀ tl : List Fragment,
      ((collectValid fe wl eo tl).map FragInfo.fragment_id).Sublist
        (tl.map Fragment.id) := by
  intro tl
  induction tl with
  | nil => simp [collectValid]
  | cons frag rest ih =>
    rw [collectValid, List.filterMap_cons]
    cases h : (if fe frag.file then
        match wl frag.file with
        | some n =>
          if n < 6400 then none
          else if eo frag.file then some (mkFragInfo frag) else none
        | none => none
      else none) with
    | none =>
      exact List.Sublist.trans ih (by simp)
    | some fi =>
      have hid : fi.fragment_id = frag.id := by
        by_cases hfe : fe frag.file
        · cases hwl : wl frag.file with
          | none => simp [hfe, hwl] at h
          | some n =>
            by_cases hn : n < 6400
            · simp [hfe, hwl, hn] at h
            · by_cases heo : eo frag.file
              · simp [hfe, hwl, hn, heo] at h
                rw [← h]
                rfl
              · simp [hfe, hwl, hn, heo] at h
        · simp [hfe] at h
      simpa [hid] using List.Sublist.cons₂ frag.id ih

/-- Claim C6: the clustering loop discards every fragment whose preprocessed
audio is shorter than 6400 samples (0.4 s at 16 kHz); it fails (returns none,
modelling the `RuntimeError`) exactly when zero fragments survive the
filtering loop; otherwise, in the returned mapping every cluster member is a
surviving fragment, discarded fragments appear in no cluster, and each
surviving fragment appears in at most one cluster. -/
theorem c6_cluster_fragments_partition (fe : String → Bool) (wl : String → Option Nat)
    (eo : String → Bool) (lab : Nat → Nat) (tl : List Fragment)
    (hids : (tl.map Fragment.id).Nodup) :
    (cluster_fragments fe wl eo lab tl = none ↔ collectValid fe wl eo tl = []) ∧
    (∀ m, cluster_fragments fe wl eo lab tl = some m →
      ∀ kc ∈ m, ∀ fi ∈ kc.2, fi ∈ collectValid fe wl eo tl) ∧
    (∀ frag ∈ tl, ∀ n, wl frag.file = some n → n < 6400 →
      ∀ m, cluster_fragments fe wl eo lab tl = some m →
        ∀ kc ∈ m, ∀ fi ∈ kc.2, fi.fragment_id ≠ frag.id) ∧
    (∀ m, cluster_fragments fe wl eo lab tl = some m →
      ∀ kc1 ∈ m, ∀ kc2 ∈ m, kc1.1 ≠ kc2.1 → ∀ fi ∈ kc1.2, fi ∉ kc2.2) := by
  have hvalid_nodup : (collectValid fe wl eo tl).Nodup :=
    List.Nodup.of_map _ (List.Nodup.sublist (collectValid_ids_sublist fe wl eo tl) hids)
  have hmem_cluster : ∀ m, cluster_fragments fe wl eo lab tl = some m →
      ∀ kc ∈ m, ∀ fi ∈ kc.2, fi ∈ collectValid fe wl eo tl := by
    intro m hm kc hkc fi hfi
    rw [cluster_fragments] at hm
    by_cases he : (collectValid fe wl eo tl).isEmpty
    · simp [he] at hm
    · simp [he] at hm
      subst hm
      rcases List.mem_map.mp hkc with ⟨k, _, hk⟩
      rw [← hk] at hfi
      exact clusterOfAux_subset lab k 0 _ fi hfi
  refine ⟨?_, hmem_cluster, ?_, ?_⟩
  · constructor
    · intro h
      by_cases he : (collectValid fe wl eo tl).isEmpty
      · exact List.isEmpty_iff.mp he
      · simp [cluster_fragments, he] at h
    · intro h
      simp [cluster_fragments, h]
  · intro frag hfrag n hwl hn m hm kc hkc fi hfi hid
    have hfi_valid : fi ∈ collectValid fe wl eo tl := hmem_cluster m hm kc hkc fi hfi
    rcases mem_collectValid.mp hfi_valid with ⟨frag2, hfrag2, _, ⟨n2, hwl2, hn2⟩, _, hfi_eq⟩
    have hid2 : frag2.id = frag.id := by
      rw [hfi_eq] at hid
      exact hid
    have : frag2 = frag := List.inj_on_of_nodup_map hids hfrag2 hfrag hid2
    subst this
    rw [hwl] at hwl2
    injection hwl2 with hnn
    exact hn2 (hnn ▸ hn)
  · intro m hm kc1 hkc1 kc2 hkc2 hne fi hfi1 hfi2
    rw [cluster_fragments] at hm
    by_cases he : (collectValid fe wl eo tl).isEmpty
    · simp [he] at hm
    · simp [he] at hm
      subst hm
      rcases List.mem_map.mp hkc1 with ⟨k1, _, hk1⟩
      rcases List.mem_map.mp hkc2 with ⟨k2, _, hk2⟩
      have hfi1' : fi ∈ clusterOfAux lab k1 0 (collectValid fe wl eo tl) := by
        rw [← hk1] at hfi1
        exact hfi1
      have hfi2' : fi ∈ clusterOfAux lab k2 0 (collectValid fe wl eo tl) := by
        rw [← hk2] at hfi2
        exact hfi2
      have : k1 = k2 := clusterOfAux_inj lab k1 k2 _ 0 hvalid_nodup hfi1' hfi2'
      apply hne
      rw [← hk1, ← hk2, this]

/-- Witness for C6: a one-fragment timeline with a long enough audio file. -/
theorem c6_cluster_fragments_partition_witness :
    (([⟨0, "a", 0, 1⟩] : List Fragment).map Fragment.id).Nodup ∧
    (cluster_fragments (fun _ => true) (fun _ => some 10000) (fun _ => true)
        (fun _ => 0) [⟨0, "a", 0, 1⟩] = none ↔
      collectValid (fun _ => true) (fun _ => some 10000) (fun _ => true)
        [⟨0, "a", 0, 1⟩] = []) :=
  ⟨by simp,
    (c6_cluster_fragments_partition (fun _ => true) (fun _ => some 10000)
      (fun _ => true) (fun _ => 0) [⟨0, "a", 0, 1⟩] (by simp)).1⟩

/-- Unfolding step of the best-candidate fold. -/
theorem bestFold_cons {α β : Type} (score : α → ℚ) (tag : α → β) (x : α) (l : List α)
    (st : Option β × ℚ) :
    bestFold score tag (x :: l) st =
      bestFold score tag l (if score x > st.2 then (some (tag x), score x) else st) := by
  rfl

/-- The best score never decreases along the fold. -/
theorem bestFold_snd_ge {α β : Type} (score : α → ℚ) (tag : α → β) :
    ∀ (l : List α) st, st.2 ≤ (bestFold score tag l st).2 := by
  intro l
  induction l with
  | nil => intro st; exact le_refl _
  | cons x rest ih =>
    intro st
    rw [bestFold_cons]
    by_cases h : score x > st.2
    · simp only [h, if_true]
      exact le_trans (le_of_lt h) (ih _)
    · simp only [h, if_false]
      exact ih st

/-- The fold either keeps its starting state or returns some element of the
list whose score strictly beats the starting score. -/
theorem bestFold_eq_or {α β : Type} (score : α → ℚ) (tag : α → β) :
    ∀ (l : List α) st, bestFold score tag l st = st ∨
      ∃ x ∈ l, (bestFold score tag l st).1 = some (tag x) ∧
        (bestFold score tag l st).2 = score x ∧ st.2 < score x := by
  intro l
  induction l with
  | nil => intro st; exact Or.inl rfl
  | cons x rest ih =>
    intro st
    rw [bestFold_cons]
    by_cases h : score x > st.2
    · simp only [h, if_true]
      rcases ih (some (tag x), score x) with h2 | ⟨y, hy, h1, h2, h3⟩
      · right
        exact ⟨x, List.mem_cons_self x rest, by rw [h2], by rw [h2], h⟩
      · right
        exact ⟨y, List.mem_cons_of_mem x hy, h1, h2, lt_trans h h3⟩
    · simp only [h, if_false]
      rcases ih st with h2 | ⟨y, hy, h1, h2, h3⟩
      · exact Or.inl h2
      · exact Or.inr ⟨y, List.mem_cons_of_mem x hy, h1, h2, h3⟩

/-- The fold's final score dominates every list element's score. -/
theorem bestFold_ge_score {α β : Type} (score : α → ℚ) (tag : α → β) :
    ∀ (l : List α) st, ∀ x ∈ l, score x ≤ (bestFold score tag l st).2 := by
  intro l
  induction l with
  | nil => intro st x hx; simp at hx
  | cons y rest ih =>
    intro st x hx
    rw [bestFold_cons]
    rcases List.mem_cons.mp hx with h | h
    · subst h
      by_cases hy : score x > st.2
      · simp only [hy, if_true]
        exact le_trans (le_refl _) (bestFold_snd_ge score tag rest _)
      · simp only [hy, if_false]
        exact le_trans (not_lt.mp hy) (bestFold_snd_ge score tag rest st)
    · by_cases hy : score y > st.2 <;> simp only [hy, if_true, if_false] <;>
        exact ih _ x h

/-- Per-fragment scores are nonnegative. -/
theorem overlapScore_nonneg (segStart segEnd segMid : ℚ) (f : FragInfo) :
    0 ≤ overlapScore segStart segEnd segMid f := by
  rw [overlapScore]
  have h1 : (0:ℚ) ≤ max 0 (min segEnd f.stop - max segStart f.start) := le_max_left _ _
  have h2 : (0:ℚ) ≤ (if f.start ≤ segMid ∧ segMid ≤ f.stop then (10:ℚ) else 0) := by
    split <;> norm_num
  linarith

/-- A list of nonpositive rationals has nonpositive sum. -/
theorem list_sum_nonpos : ∀ l : List ℚ, (∀ x ∈ l, x ≤ 0) → l.sum ≤ 0 := by
  intro l
  induction l with
  | nil => intro _; simp
  | cons x rest ih =>
    intro h
    rw [List.sum_cons]
    have hx := h x (List.mem_cons_self x rest)
    have hr := ih (fun y hy => h y (List.mem_cons_of_mem x hy))
    linarith

/-- A speaker with positive total score has a fragment with positive score. -/
theorem speakerScore_pos_exists (segStart segEnd segMid : ℚ) (frags : List FragInfo)
    (h : 0 < speakerScore segStart segEnd segMid frags) :
    ∃ f ∈ frags, 0 < overlapScore segStart segEnd segMid f := by
  by_contra hno
  push_neg at hno
  have : speakerScore segStart segEnd segMid frags ≤ 0 := by
    apply list_sum_nonpos
    intro x hx
    rcases List.mem_map.mp hx with ⟨f, hf, rfl⟩
    exact hno f hf
  linarith

/-- When the assignment returns a speaker, that speaker is a key of the
clusters and its fragment list has positive total score. -/
theorem assign_some_spec (segStart segEnd : ℚ) (clusters : List (String × List FragInfo))
    (spk : String) (h : assign_speaker_to_segment segStart segEnd clusters = some spk) :
    ∃ p ∈ clusters, p.1 = spk ∧
      0 < speakerScore segStart segEnd ((segStart + segEnd) / 2) p.2 := by
  rw [assign_speaker_to_segment] at h
  rcases bestFold_eq_or
      (fun p => speakerScore segStart segEnd ((segStart + segEnd) / 2) p.2)
      Prod.fst clusters (none, 0) with h2 | ⟨p, hp, h1, _, h3⟩
  · rw [h2] at h
    simp at h
  · rw [h1] at h
    injection h with h4
    exact ⟨p, hp, h4, h3⟩

/-- A cluster with positive total score yields an anchor, and the anchor is a
member of the cluster. -/
theorem findAnchor_of_pos (segStart segEnd segMid : ℚ) (cluster : List FragInfo)
    (h : 0 < speakerScore segStart segEnd segMid cluster) :
    ∃ a, (findAnchor segStart segEnd segMid cluster).1 = some a ∧ a ∈ cluster := by
  rcases speakerScore_pos_exists segStart segEnd segMid cluster h with ⟨f, hf, hpos⟩
  rcases bestFold_eq_or (overlapScore segStart segEnd segMid) id cluster (none, 0) with
    h2 | ⟨x, hx, h1, _, _⟩
  · exfalso
    have hge := bestFold_ge_score (overlapScore segStart segEnd segMid) id cluster
      (none, 0) f hf
    rw [h2] at hge
    simp at hge
    linarith
  · refine ⟨x, ?_, hx⟩
    show (bestFold (overlapScore segStart segEnd segMid) id cluster (none, 0)).1 = some x
    rw [h1]
    rfl

/-- The anchor, when present, belongs to the cluster. -/
theorem findAnchor_mem (segStart segEnd segMid : ℚ) (cluster : List FragInfo)
    (a : FragInfo) (h : (findAnchor segStart segEnd segMid cluster).1 = some a) :
    a ∈ cluster := by
  rcases bestFold_eq_or (overlapScore segStart segEnd segMid) id cluster (none, 0) with
    h2 | ⟨x, hx, h1, _, _⟩
  · rw [findAnchor, h2] at h
    simp at h
  · have h' : (bestFold (overlapScore segStart segEnd segMid) id cluster (none, 0)).1
        = some a := h
    rw [h1] at h'
    injection h' with h3
    subst h3
    simpa using hx

/-- Looking up a key that belongs to a duplicate-free association list finds
its binding. -/
theorem lookupCluster_of_mem :
    ∀ (l : List (String × List FragInfo)) (p : String × List FragInfo), p ∈ l →
      (l.map Prod.fst).Nodup → lookupCluster p.1 l = some p.2 := by
  intro l
  induction l with
  | nil => intro p hp; simp at hp
  | cons q rest ih =>
    intro p hp hnd
    rcases List.mem_cons.mp hp with h | h
    · subst h
      simp [lookupCluster]
    · have hnd' : q.1 ∉ rest.map Prod.fst ∧ (rest.map Prod.fst).Nodup := by
        rw [List.map_cons, List.nodup_cons] at hnd
        exact hnd
      have hq : q.1 ≠ p.1 := by
        intro he
        exact hnd'.1 (he ▸ List.mem_map_of_mem Prod.fst h)
      rw [lookupCluster, if_neg hq]
      exact ih p h hnd'.2

/-- A successful lookup returns the binding of a present key. -/
theorem lookupCluster_mem :
    ∀ (l : List (String × List FragInfo)) (s : String) (c : List FragInfo),
      lookupCluster s l = some c → ∃ p ∈ l, p.1 = s ∧ p.2 = c := by
  intro l
  induction l with
  | nil => intro s c h; simp [lookupCluster] at h
  | cons q rest ih =>
    intro s c h
    by_cases hq : q.1 = s
    · rw [lookupCluster, if_pos hq] at h
      injection h with h2
      exact ⟨q, List.mem_cons_self q rest, hq, h2⟩
    · rw [lookupCluster, if_neg hq] at h
      rcases ih s c h with ⟨p, hp, h1, h2⟩
      exact ⟨p, List.mem_cons_of_mem q hp, h1, h2⟩

/-- Insertion produces a permutation. -/
theorem insertByKey_perm (key : FragInfo → ℚ) (f : FragInfo) :
    ∀ l, (insertByKey key f l).Perm (f :: l) := by
  intro l
  induction l with
  | nil => exact List.Perm.refl _
  | cons g rest ih =>
    rw [insertByKey]
    by_cases h : key f < key g
    · simp only [h, if_true]
      exact List.Perm.refl _
    · simp only [h, if_false]
      exact List.Perm.trans (List.Perm.cons g ih) (List.Perm.swap f g rest)

/-- Sorting produces a permutation. -/
theorem sortByKey_perm (key : FragInfo → ℚ) :
    ∀ l, (sortByKey key l).Perm l := by
  intro l
  induction l with
  | nil => exact List.Perm.refl _
  | cons f rest ih =>
    rw [sortByKey]
    exact List.Perm.trans (insertByKey_perm key f (sortByKey key rest))
      (List.Perm.cons f ih)

/-- Insertion keeps the list sorted by the key. -/
theorem insertByKey_pairwise (key : FragInfo → ℚ) (f : FragInfo) :
    ∀ l, List.Pairwise (fun a b => key a ≤ key b) l →
      List.Pairwise (fun a b => key a ≤ key b) (insertByKey key f l) := by
  intro l
  induction l with
  | nil => intro _; simp [insertByKey]
  | cons g rest ih =>
    intro h
    rcases List.pairwise_cons.mp h with ⟨hg, hrest⟩
    rw [insertByKey]
    by_cases hlt : key f < key g
    · simp only [hlt, if_true]
      refine List.pairwise_cons.mpr ⟨?_, h⟩
      intro x hx
      rcases List.mem_cons.mp hx with h2 | h2
      · exact le_of_lt (h2 ▸ hlt)
      · exact le_trans (le_of_lt hlt) (hg x h2)
    · simp only [hlt, if_false]
      refine List.pairwise_cons.mpr ⟨?_, ih hrest⟩
      intro x hx
      rcases List.mem_cons.mp ((insertByKey_perm key f rest).mem_iff.mp hx) with h2 | h2
      · exact h2 ▸ not_lt.mp hlt
      · exact hg x h2

/-- The sort is sorted by the key. -/
theorem sortByKey_pairwise (key : FragInfo → ℚ) :
    ∀ l, List.Pairwise (fun a b => key a ≤ key b) (sortByKey key l) := by
  intro l
  induction l with
  | nil => simp [sortByKey]
  | cons f rest ih =>
    rw [sortByKey]
    exact insertByKey_pairwise key f (sortByKey key rest) ih

/-- The greedy loop only ever appends: selected fragments stay selected. -/
theorem greedyAdd_fst_mem (minD targetD : ℚ) (anchor : FragInfo) :
    ∀ (l : List FragInfo) st x, x ∈ st.1 →
      x ∈ (greedyAdd minD targetD anchor l st).1 := by
  intro l
  induction l with
  | nil => intro st x hx; exact hx
  | cons f rest ih =>
    intro st x hx
    rw [greedyAdd]
    by_cases h1 : f = anchor
    · simp only [h1, if_true]
      exact ih st x hx
    · simp only [h1, if_false]
      by_cases h2 : st.2 ≥ targetD
      · simp only [h2, if_true]
        exact hx
      · simp only [h2, if_false]
        by_cases h3 : st.2 + f.duration > targetD * (3/2)
        · simp only [h3, if_true]
          exact ih st x hx
        · simp only [h3, if_false]
          by_cases h4 : st.2 + f.duration ≥ minD
          · simp only [h4, if_true]
            exact List.mem_append_left _ hx
          · simp only [h4, if_false]
            exact ih _ x (List.mem_append_left _ hx)

/-- Every selected fragment was initially selected or comes from the list. -/
theorem greedyAdd_fst_subset (minD targetD : ℚ) (anchor : FragInfo) :
    ∀ (l : List FragInfo) st x, x ∈ (greedyAdd minD targetD anchor l st).1 →
      x ∈ st.1 ∨ x ∈ l := by
  intro l
  induction l with
  | nil => intro st x hx; exact Or.inl hx
  | cons f rest ih =>
    intro st x hx
    rw [greedyAdd] at hx
    by_cases h1 : f = anchor
    · rw [if_pos h1] at hx
      rcases ih st x hx with h | h
      · exact Or.inl h
      · exact Or.inr (List.mem_cons_of_mem f h)
    · rw [if_neg h1] at hx
      by_cases h2 : st.2 ≥ targetD
      · rw [if_pos h2] at hx
        exact Or.inl hx
      · rw [if_neg h2] at hx
        by_cases h3 : st.2 + f.duration > targetD * (3/2)
        · rw [if_pos h3] at hx
          rcases ih st x hx with h | h
          · exact Or.inl h
          · exact Or.inr (List.mem_cons_of_mem f h)
        · rw [if_neg h3] at hx
          by_cases h4 : st.2 + f.duration ≥ minD
          · rw [if_pos h4] at hx
            rcases List.mem_append.mp hx with h | h
            · exact Or.inl h
            · exact Or.inr (List.mem_cons.mpr (Or.inl (List.mem_singleton.mp h)))
          · rw [if_neg h4] at hx
            rcases ih _ x hx with h | h
            · rcases List.mem_append.mp h with h5 | h5
              · exact Or.inl h5
              · exact Or.inr (List.mem_cons.mpr (Or.inl (List.mem_singleton.mp h5)))
            · exact Or.inr (List.mem_cons_of_mem f h)

/-- The greedy total tracks the selected fragments' stored durations. -/
theorem greedyAdd_snd_sum (minD targetD : ℚ) (anchor : FragInfo) :
    ∀ (l : List FragInfo) st, st.2 = (st.1.map FragInfo.duration).sum →
      (greedyAdd minD targetD anchor l st).2 =
        ((greedyAdd minD targetD anchor l st).1.map FragInfo.duration).sum := by
  intro l
  induction l with
  | nil => intro st h; exact h
  | cons f rest ih =>
    intro st h
    rw [greedyAdd]
    by_cases h1 : f = anchor
    · rw [if_pos h1]
      exact ih st h
    · rw [if_neg h1]
      by_cases h2 : st.2 ≥ targetD
      · rw [if_pos h2]
        exact h
      · rw [if_neg h2]
        by_cases h3 : st.2 + f.duration > targetD * (3/2)
        · rw [if_pos h3]
          exact ih st h
        · rw [if_neg h3]
          by_cases h4 : st.2 + f.duration ≥ minD
          · rw [if_pos h4]
            simp [h, List.sum_append]
          · rw [if_neg h4]
            exact ih _ (by simp [h, List.sum_append])

/-- With nonnegative durations the greedy total never decreases. -/
theorem greedyAdd_snd_ge (minD targetD : ℚ) (anchor : FragInfo) :
    ∀ (l : List FragInfo) st, (∀ f ∈ l, 0 ≤ f.duration) →
      st.2 ≤ (greedyAdd minD targetD anchor l st).2 := by
  intro l
  induction l with
  | nil => intro st _; exact le_refl _
  | cons f rest ih =>
    intro st hd
    have hdf : 0 ≤ f.duration := hd f (List.mem_cons_self f rest)
    have hdr : ∀ g ∈ rest, 0 ≤ g.duration :=
      fun g hg => hd g (List.mem_cons_of_mem f hg)
    rw [greedyAdd]
    by_cases h1 : f = anchor
    · rw [if_pos h1]
      exact ih st hdr
    · rw [if_neg h1]
      by_cases h2 : st.2 ≥ targetD
      · rw [if_pos h2]
      · rw [if_neg h2]
        by_cases h3 : st.2 + f.duration > targetD * (3/2)
        · rw [if_pos h3]
          exact ih st hdr
        · rw [if_neg h3]
          by_cases h4 : st.2 + f.duration ≥ minD
          · rw [if_pos h4]
            simpa using hdf
          · rw [if_neg h4]
            exact le_trans (by simpa using hdf) (ih _ hdr)

/-- The duration-floor property of the greedy loop: when all remaining
fragments fit jointly under the `targetDuration * 1.5` cap and together with
the running total reach `minDuration`, the loop ends at or above
`minDuration`. -/
theorem greedyAdd_floor (minD targetD : ℚ) (anchor : FragInfo)
    (hmt : minD ≤ targetD) :
    ∀ (l : List FragInfo) st, (∀ f ∈ l, 0 ≤ f.duration) →
      minD ≤ st.2 + ((l.filter (fun f => f ≠ anchor)).map FragInfo.duration).sum →
      st.2 + ((l.filter (fun f => f ≠ anchor)).map FragInfo.duration).sum ≤
        targetD * (3/2) →
      minD ≤ (greedyAdd minD targetD anchor l st).2 := by
  intro l
  induction l with
  | nil =>
    intro st _ hge _
    simpa using hge
  | cons f rest ih =>
    intro st hd hge hle
    have hdr : ∀ g ∈ rest, 0 ≤ g.duration :=
      fun g hg => hd g (List.mem_cons_of_mem f hg)
    rw [greedyAdd]
    by_cases h1 : f = anchor
    · rw [if_pos h1]
      have hfil : (f :: rest).filter (fun f => f ≠ anchor) =
          rest.filter (fun f => f ≠ anchor) := by
        simp [List.filter_cons, h1]
      rw [hfil] at hge hle
      exact ih st hdr hge hle
    · have hfil : (f :: rest).filter (fun f => f ≠ anchor) =
          f :: rest.filter (fun f => f ≠ anchor) := by
        simp [List.filter_cons, h1]
      rw [hfil, List.map_cons, List.sum_cons] at hge hle
      set S := ((rest.filter (fun f => f ≠ anchor)).map FragInfo.duration).sum with hS
      have hrest_nonneg : 0 ≤ S := by
        rw [hS]
        apply List.sum_nonneg
        intro x hx
        rcases List.mem_map.mp hx with ⟨g, hg, rfl⟩
        exact hdr g (List.mem_of_mem_filter hg)
      rw [if_neg h1]
      by_cases h2 : st.2 ≥ targetD
      · rw [if_pos h2]
        linarith
      · rw [if_neg h2]
        by_cases h3 : st.2 + f.duration > targetD * (3/2)
        · exfalso
          linarith
        · rw [if_neg h3]
          by_cases h4 : st.2 + f.duration ≥ minD
          · rw [if_pos h4]
            exact h4
          · rw [if_neg h4]
            refine ih (st.1 ++ [f], st.2 + f.duration) hdr ?_ ?_
            · show minD ≤ st.2 + f.duration + S
              linarith
            · show st.2 + f.duration + S ≤ targetD * (3/2)
              linarith

/-- Claim C8: `select_reference_for_segment` returns `(none, [], 0)` when no
speaker is resolved; when a speaker is resolved, an anchor fragment exists,
the anchor appears in the returned fragment list, and the returned list is in
chronological (start-time) order. -/
theorem c8_select_reference_guarantees (segStart segEnd minD targetD : ℚ)
    (clusters : List (String × List FragInfo))
    (hkeys : (clusters.map Prod.fst).Nodup) :
    (assign_speaker_to_segment segStart segEnd clusters = none →
      select_reference_for_segment segStart segEnd clusters minD targetD =
        (none, [], 0)) ∧
    (∀ spk, assign_speaker_to_segment segStart segEnd clusters = some spk →
      ∃ cluster anchor frags,
        lookupCluster spk clusters = some cluster ∧
        (findAnchor segStart segEnd ((segStart + segEnd) / 2) cluster).1 =
          some anchor ∧
        (select_reference_for_segment segStart segEnd clusters minD targetD).1 =
          some spk ∧
        (select_reference_for_segment segStart segEnd clusters minD targetD).2.1 =
          frags.map FragInfo.file ∧
        anchor ∈ frags ∧ List.Pairwise (fun a b => a.start ≤ b.start) frags) := by
  constructor
  · intro h
    simp [select_reference_for_segment, h]
  · intro spk h
    obtain ⟨p, hp, hfst, hpos⟩ := assign_some_spec segStart segEnd clusters spk h
    have hlk : lookupCluster spk clusters = some p.2 := by
      rw [← hfst]
      exact lookupCluster_of_mem clusters p hp hkeys
    obtain ⟨anchor, hanchor, hmem⟩ :=
      findAnchor_of_pos segStart segEnd ((segStart + segEnd) / 2) p.2 hpos
    by_cases h1 : anchor.duration ≥ targetD
    · have hsel : select_reference_for_segment segStart segEnd clusters minD targetD =
          (some spk, [anchor.file], anchor.duration) := by
        simp only [select_reference_for_segment, h, hlk, hanchor]
        rw [if_pos h1]
      exact ⟨p.2, anchor, [anchor], hlk, hanchor, by rw [hsel], by rw [hsel]; rfl,
        List.mem_singleton.mpr rfl, by simp⟩
    · by_cases h2 : anchor.duration < minD
      · have hsel : select_reference_for_segment segStart segEnd clusters minD targetD =
            (some spk,
              (sortByKey (fun f => f.start)
                (greedyAdd minD targetD anchor
                  (sortByKey (fun f => |midOf f - midOf anchor|) p.2)
                  ([anchor], anchor.duration)).1).map (fun f => f.file),
              (greedyAdd minD targetD anchor
                (sortByKey (fun f => |midOf f - midOf anchor|) p.2)
                ([anchor], anchor.duration)).2) := by
          simp only [select_reference_for_segment, h, hlk, hanchor]
          rw [if_neg h1, if_pos h2]
        refine ⟨p.2, anchor,
          sortByKey (fun f => f.start)
            (greedyAdd minD targetD anchor
              (sortByKey (fun f => |midOf f - midOf anchor|) p.2)
              ([anchor], anchor.duration)).1,
          hlk, hanchor, by rw [hsel], by rw [hsel], ?_, ?_⟩
        · have hin : anchor ∈ (greedyAdd minD targetD anchor
              (sortByKey (fun f => |midOf f - midOf anchor|) p.2)
              ([anchor], anchor.duration)).1 :=
            greedyAdd_fst_mem minD targetD anchor _ ([anchor], anchor.duration)
              anchor (List.mem_singleton.mpr rfl)
          exact (sortByKey_perm (fun f => f.start) _).mem_iff.mpr hin
        · exact sortByKey_pairwise (fun f => f.start) _
      · have hsel : select_reference_for_segment segStart segEnd clusters minD targetD =
            (some spk, [anchor.file], anchor.duration) := by
          simp only [select_reference_for_segment, h, hlk, hanchor]
          rw [if_neg h1, if_neg h2]
        exact ⟨p.2, anchor, [anchor], hlk, hanchor, by rw [hsel], by rw [hsel]; rfl,
          List.mem_singleton.mpr rfl, by simp⟩

/-- Claim C9: if the resolved anchor is shorter than `minDuration` and the
speaker's cluster holds at least two fragments whose joint duration reaches
`minDuration` while staying within reach of the greedy loop (all additions fit
under the `targetDuration * 1.5` cap), then the returned `totalDuration` is at
least `minDuration`. -/
theorem c9_reference_duration_floor (segStart segEnd minD targetD : ℚ)
    (clusters : List (String × List FragInfo)) (spk : String)
    (cluster : List FragInfo) (anchor : FragInfo)
    (hmt : minD ≤ targetD)
    (hassign : assign_speaker_to_segment segStart segEnd clusters = some spk)
    (hlk : lookupCluster spk clusters = some cluster)
    (hanchor : (findAnchor segStart segEnd ((segStart + segEnd) / 2) cluster).1 =
      some anchor)
    (hshort : anchor.duration < minD)
    (hdur : ∀ f ∈ cluster, 0 ≤ f.duration)
    (_htwo : 2 ≤ cluster.length)
    (hsum_ge : minD ≤ anchor.duration +
      ((cluster.filter (fun f => f ≠ anchor)).map FragInfo.duration).sum)
    (hsum_le : anchor.duration +
      ((cluster.filter (fun f => f ≠ anchor)).map FragInfo.duration).sum ≤
        targetD * (3/2)) :
    minD ≤ (select_reference_for_segment segStart segEnd clusters minD targetD).2.2 := by
  have h1 : ¬ anchor.duration ≥ targetD := by linarith
  have hsel : (select_reference_for_segment segStart segEnd clusters minD targetD).2.2 =
      (greedyAdd minD targetD anchor
        (sortByKey (fun f => |midOf f - midOf anchor|) cluster)
        ([anchor], anchor.duration)).2 := by
    simp only [select_reference_for_segment, hassign, hlk, hanchor]
    rw [if_neg h1, if_pos hshort]
  rw [hsel]
  have hperm : (sortByKey (fun f => |midOf f - midOf anchor|) cluster).Perm cluster :=
    sortByKey_perm _ _
  have hsum_eq : (((sortByKey (fun f => |midOf f - midOf anchor|) cluster).filter
        (fun f => f ≠ anchor)).map FragInfo.duration).sum =
      ((cluster.filter (fun f => f ≠ anchor)).map FragInfo.duration).sum :=
    (List.Perm.map FragInfo.duration (List.Perm.filter _ hperm)).sum_eq
  apply greedyAdd_floor minD targetD anchor hmt
  · intro f hf
    exact hdur f (hperm.mem_iff.mp hf)
  · show minD ≤ anchor.duration + _
    rw [hsum_eq]
    exact hsum_ge
  · show anchor.duration + _ ≤ targetD * (3/2)
    rw [hsum_eq]
    exact hsum_le

/-- Claim C10: the returned `totalDuration` always equals the sum of the
stored durations (`end - start`, per the fragment invariant) of the returned
fragments, and is 0 exactly when the returned file list is empty. -/
theorem c10_total_duration_sum (segStart segEnd minD targetD : ℚ)
    (clusters : List (String × List FragInfo))
    (hwf : ∀ p ∈ clusters, ∀ f ∈ p.2,
      f.duration = f.stop - f.start ∧ f.start < f.stop) :
    (∃ frags : List FragInfo,
      (select_reference_for_segment segStart segEnd clusters minD targetD).2.1 =
        frags.map FragInfo.file ∧
      (select_reference_for_segment segStart segEnd clusters minD targetD).2.2 =
        (frags.map (fun f => f.stop - f.start)).sum) ∧
    ((select_reference_for_segment segStart segEnd clusters minD targetD).2.2 = 0 ↔
      (select_reference_for_segment segStart segEnd clusters minD targetD).2.1 = []) := by
  cases hassign : assign_speaker_to_segment segStart segEnd clusters with
  | none =>
    have hsel : select_reference_for_segment segStart segEnd clusters minD targetD =
        (none, [], 0) := by
      simp [select_reference_for_segment, hassign]
    rw [hsel]
    exact ⟨⟨[], by simp, by simp⟩, by simp⟩
  | some spk =>
    cases hlk : lookupCluster spk clusters with
    | none =>
      have hsel : select_reference_for_segment segStart segEnd clusters minD targetD =
          (none, [], 0) := by
        simp [select_reference_for_segment, hassign, hlk]
      rw [hsel]
      exact ⟨⟨[], by simp, by simp⟩, by simp⟩
    | some cluster =>
      have hwfc : ∀ f ∈ cluster, f.duration = f.stop - f.start ∧ f.start < f.stop := by
        obtain ⟨p, hp, _, h2⟩ := lookupCluster_mem clusters spk cluster hlk
        intro f hf
        exact hwf p hp f (by rw [h2]; exact hf)
      cases hanchor : (findAnchor segStart segEnd ((segStart + segEnd) / 2) cluster).1 with
      | none =>
        have hsel : select_reference_for_segment segStart segEnd clusters minD targetD =
            (some spk, [], 0) := by
          simp [select_reference_for_segment, hassign, hlk, hanchor]
        rw [hsel]
        exact ⟨⟨[], by simp, by simp⟩, by simp⟩
      | some anchor =>
        have hanchor_mem : anchor ∈ cluster :=
          findAnchor_mem segStart segEnd ((segStart + segEnd) / 2) cluster anchor hanchor
        have hanchor_wf := hwfc anchor hanchor_mem
        have hanchor_pos : 0 < anchor.duration := by
          rw [hanchor_wf.1]
          linarith [hanchor_wf.2]
        by_cases h1 : anchor.duration ≥ targetD
        · have hsel : select_reference_for_segment segStart segEnd clusters minD targetD =
              (some spk, [anchor.file], anchor.duration) := by
            simp only [select_reference_for_segment, hassign, hlk, hanchor]
            rw [if_pos h1]
          rw [hsel]
          refine ⟨⟨[anchor], by simp, by simp [hanchor_wf.1]⟩, ?_⟩
          refine iff_of_false ?_ (by simp)
          intro h0
          have h0' : anchor.duration = 0 := h0
          linarith
        · by_cases h2 : anchor.duration < minD
          · have hsel : select_reference_for_segment segStart segEnd clusters minD targetD =
                (some spk,
                  (sortByKey (fun f => f.start)
                    (greedyAdd minD targetD anchor
                      (sortByKey (fun f => |midOf f - midOf anchor|) cluster)
                      ([anchor], anchor.duration)).1).map (fun f => f.file),
                  (greedyAdd minD targetD anchor
                    (sortByKey (fun f => |midOf f - midOf anchor|) cluster)
                    ([anchor], anchor.duration)).2) := by
              simp only [select_reference_for_segment, hassign, hlk, hanchor]
              rw [if_neg h1, if_pos h2]
            rw [hsel]
            have hperm : (sortByKey (fun f => |midOf f - midOf anchor|) cluster).Perm
                cluster := sortByKey_perm _ _
            have hsub : ∀ f ∈ (greedyAdd minD targetD anchor
                (sortByKey (fun f => |midOf f - midOf anchor|) cluster)
                ([anchor], anchor.duration)).1, f ∈ cluster := by
              intro f hf
              rcases greedyAdd_fst_subset minD targetD anchor _ _ f hf with h | h
              · rw [List.mem_singleton.mp h]
                exact hanchor_mem
              · exact hperm.mem_iff.mp h
            have hsum : (greedyAdd minD targetD anchor
                (sortByKey (fun f => |midOf f - midOf anchor|) cluster)
                ([anchor], anchor.duration)).2 =
                ((greedyAdd minD targetD anchor
                  (sortByKey (fun f => |midOf f - midOf anchor|) cluster)
                  ([anchor], anchor.duration)).1.map FragInfo.duration).sum :=
              greedyAdd_snd_sum minD targetD anchor _ ([anchor], anchor.duration)
                (by simp)
            have hperm2 : (sortByKey (fun f => f.start)
                (greedyAdd minD targetD anchor
                  (sortByKey (fun f => |midOf f - midOf anchor|) cluster)
                  ([anchor], anchor.duration)).1).Perm
                (greedyAdd minD targetD anchor
                  (sortByKey (fun f => |midOf f - midOf anchor|) cluster)
                  ([anchor], anchor.duration)).1 := sortByKey_perm _ _
            have hmem_anchor : anchor ∈ (greedyAdd minD targetD anchor
                (sortByKey (fun f => |midOf f - midOf anchor|) cluster)
                ([anchor], anchor.duration)).1 :=
              greedyAdd_fst_mem minD targetD anchor _ ([anchor], anchor.duration)
                anchor (List.mem_singleton.mpr rfl)
            refine ⟨⟨sortByKey (fun f => f.start)
                (greedyAdd minD targetD anchor
                  (sortByKey (fun f => |midOf f - midOf anchor|) cluster)
                  ([anchor], anchor.duration)).1, rfl, ?_⟩, ?_⟩
            · rw [hsum, ← (List.Perm.map FragInfo.duration hperm2).sum_eq]
              apply congrArg
              apply List.map_congr_left
              intro f hf
              exact (hwfc f (hsub f (hperm2.mem_iff.mp hf))).1
            · have hpos : 0 < (greedyAdd minD targetD anchor
                  (sortByKey (fun f => |midOf f - midOf anchor|) cluster)
                  ([anchor], anchor.duration)).2 := by
                have hge := greedyAdd_snd_ge minD targetD anchor
                  (sortByKey (fun f => |midOf f - midOf anchor|) cluster)
                  ([anchor], anchor.duration) ?_
                · exact lt_of_lt_of_le hanchor_pos hge
                · intro f hf
                  have hfc := hwfc f (hperm.mem_iff.mp hf)
                  rw [hfc.1]
                  linarith [hfc.2]
              refine iff_of_false ?_ ?_
              · intro h0
                have h0' : (greedyAdd minD targetD anchor
                    (sortByKey (fun f => |midOf f - midOf anchor|) cluster)
                    ([anchor], anchor.duration)).2 = 0 := h0
                linarith
              · intro h0
                rw [List.map_eq_nil_iff] at h0
                exact absurd (hperm2.mem_iff.mpr hmem_anchor) (by rw [h0]; simp)
          · have hsel : select_reference_for_segment segStart segEnd clusters minD targetD =
                (some spk, [anchor.file], anchor.duration) := by
              simp only [select_reference_for_segment, hassign, hlk, hanchor]
              rw [if_neg h1, if_neg h2]
            rw [hsel]
            refine ⟨⟨[anchor], by simp, by simp [hanchor_wf.1]⟩, ?_⟩
            refine iff_of_false ?_ (by simp)
            intro h0
            have h0' : anchor.duration = 0 := h0
            linarith

/-- Witness for C8: a resolved speaker over `clusters0` yields an anchor
contained in a chronologically ordered result. -/
theorem c8_select_reference_guarantees_witness :
    ∃ cluster anchor frags,
      lookupCluster "speaker_0" clusters0 = some cluster ∧
      (findAnchor 0 2 ((0 + 2) / 2) cluster).1 = some anchor ∧
      (select_reference_for_segment 0 2 clusters0 5 10).1 = some "speaker_0" ∧
      (select_reference_for_segment 0 2 clusters0 5 10).2.1 =
        frags.map FragInfo.file ∧
      anchor ∈ frags ∧ List.Pairwise (fun a b => a.start ≤ b.start) frags :=
  (c8_select_reference_guarantees 0 2 5 10 clusters0
    (by simp [clusters0])).2 "speaker_0"
    (by norm_num [assign_speaker_to_segment, bestFold, speakerScore, overlapScore,
      clusters0, fragA, fragB, List.foldl_cons, List.foldl_nil])

/-- Witness for C9: with anchor `fragA` (2 s) and companion `fragB` (4 s) the
returned total duration reaches the 5 s floor. -/
theorem c9_reference_duration_floor_witness :
    (5:ℚ) ≤ (select_reference_for_segment 0 2 clusters0 5 10).2.2 :=
  c9_reference_duration_floor 0 2 5 10 clusters0 "speaker_0" [fragA, fragB] fragA
    (by norm_num)
    (by norm_num [assign_speaker_to_segment, bestFold, speakerScore, overlapScore,
      clusters0, fragA, fragB, List.foldl_cons, List.foldl_nil])
    (by simp [lookupCluster, clusters0])
    (by norm_num [findAnchor, bestFold, overlapScore, fragA, fragB,
      List.foldl_cons, List.foldl_nil])
    (by norm_num [fragA])
    (by intro f hf; rcases List.mem_cons.mp hf with h | h
        · rw [h]; norm_num [fragA]
        · rw [List.mem_singleton.mp h]; norm_num [fragB])
    (by simp)
    (by norm_num [List.filter_cons, fragA, fragB])
    (by norm_num [List.filter_cons, fragA, fragB])

/-- Witness for C10: on `clusters0` the returned total is the sum of the
returned fragments' `end - start` durations and vanishes only with an empty
list. -/
theorem c10_total_duration_sum_witness :
    (∃ frags : List FragInfo,
      (select_reference_for_segment 0 2 clusters0 5 10).2.1 =
        frags.map FragInfo.file ∧
      (select_reference_for_segment 0 2 clusters0 5 10).2.2 =
        (frags.map (fun f => f.stop - f.start)).sum) ∧
    ((select_reference_for_segment 0 2 clusters0 5 10).2.2 = 0 ↔
      (select_reference_for_segment 0 2 clusters0 5 10).2.1 = []) :=
  c10_total_duration_sum 0 2 5 10 clusters0
    (by intro p hp f hf
        rcases List.mem_singleton.mp hp with rfl
        rcases List.mem_cons.mp hf with h | h
        · rw [h]; norm_num [fragA]
        · rw [List.mem_singleton.mp h]; norm_num [fragB])

/-- A list whose `getLast?` is `some a` contains `a`. -/
theorem mem_of_getLast?_eq {α : Type} {l : List α} {a : α}
    (h : l.getLast? = some a) : a ∈ l := by
  cases l with
  | nil => simp at h
  | cons y ys =>
    have hne : (y :: ys) ≠ [] := by simp
    rw [List.getLast?_eq_getLast _ hne] at h
    injection h with h2
    exact h2 ▸ List.getLast_mem hne

/-- In a pairwise-related list, every element before the last is related to
the last. -/
theorem rel_getLast_of_pairwise {α : Type} {R : α → α → Prop} {l : List α} {a : α}
    (h : l.getLast? = some a) (hp : l.Pairwise R) : ∀ x ∈ l.dropLast, R x a := by
  cases l with
  | nil => simp at h
  | cons y ys =>
    have hne : (y :: ys) ≠ [] := by simp
    rw [List.getLast?_eq_getLast _ hne] at h
    injection h with h2
    have hdecomp := List.dropLast_append_getLast hne
    rw [← hdecomp, List.pairwise_append] at hp
    intro x hx
    exact h2 ▸ hp.2.2 x hx ((y :: ys).getLast hne) (by simp)

/-- Claim C2: the carry-over state machine.  With a pending fragment, an empty
window or a first interval not beginning within 0.5 s of `chunkStart` flushes
the pending fragment ahead of the window's intervals, while a first interval
within 0.5 s extends the pending fragment's end to that interval's end and
replaces the interval with the merged fragment; the window's last interval is
deferred (stored as the pending fragment and dropped from the emitted list)
iff it ends within 0.1 s of `chunkEnd` and `chunkEnd < totalDuration - 0.05`,
in which case the computed next window start (before the loop's safety valve)
is that interval's own start, and otherwise it is `chunkEnd`. -/
theorem c2_carry_over_state_machine :
    (∀ (cs : ℚ) (b : Iv), handleCarry cs (some b) [] = ([b], [])) ∧
    (∀ (cs : ℚ) (b s0 : Iv) (rest : List Iv), cs ≤ s0.start →
      (|s0.start - cs| < 1/2 →
        handleCarry cs (some b) (s0 :: rest) = ([], ⟨b.start, s0.stop⟩ :: rest)) ∧
      (¬ |s0.start - cs| < 1/2 →
        handleCarry cs (some b) (s0 :: rest) = ([b], s0 :: rest))) ∧
    (∀ (total ce : ℚ) (pre segs : List Iv) (lastSeg : Iv),
      segs.getLast? = some lastSeg →
      ((finishChunk total ce pre segs).buf = some lastSeg ↔
        (|lastSeg.stop - ce| < 1/10 ∧ ce < total - 1/20)) ∧
      (|lastSeg.stop - ce| < 1/10 ∧ ce < total - 1/20 →
        finishChunk total ce pre segs =
          ⟨pre ++ segs.dropLast, some lastSeg, lastSeg.start⟩) ∧
      (¬ (|lastSeg.stop - ce| < 1/10 ∧ ce < total - 1/20) →
        finishChunk total ce pre segs = ⟨pre ++ segs, none, ce⟩)) ∧
    (∀ (total ce : ℚ) (pre : List Iv), finishChunk total ce pre [] = ⟨pre, none, ce⟩) := by
  refine ⟨fun cs b => rfl, ?_, ?_, fun total ce pre => rfl⟩
  · intro cs b s0 rest hle
    have habs : |s0.start - cs| = s0.start - cs := abs_of_nonneg (by linarith)
    constructor
    · intro h
      rw [habs] at h
      show (if s0.start - cs < 1/2 then ([], Iv.mk b.start s0.stop :: rest)
        else ([b], s0 :: rest)) = ([], Iv.mk b.start s0.stop :: rest)
      rw [if_pos h]
    · intro h
      rw [habs] at h
      show (if s0.start - cs < 1/2 then ([], Iv.mk b.start s0.stop :: rest)
        else ([b], s0 :: rest)) = ([b], s0 :: rest)
      rw [if_neg h]
  · intro total ce pre segs lastSeg hlast
    have hc : (|lastSeg.stop - ce| < 1/10 ∧ ¬ (ce ≥ total - 1/20)) ↔
        (|lastSeg.stop - ce| < 1/10 ∧ ce < total - 1/20) := by
      rw [not_le]
    by_cases hcond : |lastSeg.stop - ce| < 1/10 ∧ ce < total - 1/20
    · have hcond' : |lastSeg.stop - ce| < 1/10 ∧ ¬ (ce ≥ total - 1/20) := hc.mpr hcond
      have hfc : finishChunk total ce pre segs =
          ⟨pre ++ segs.dropLast, some lastSeg, lastSeg.start⟩ := by
        rw [finishChunk, hlast]
        show (if |lastSeg.stop - ce| < 1/10 ∧ ¬ (ce ≥ total - 1/20) then
            StepOut.mk (pre ++ segs.dropLast) (some lastSeg) lastSeg.start
          else StepOut.mk (pre ++ segs) none ce) = _
        rw [if_pos hcond']
      exact ⟨by rw [hfc]; exact iff_of_true rfl hcond, fun _ => hfc,
        fun h => absurd hcond h⟩
    · have hcond' : ¬ (|lastSeg.stop - ce| < 1/10 ∧ ¬ (ce ≥ total - 1/20)) :=
        fun h => hcond (hc.mp h)
      have hfc : finishChunk total ce pre segs = ⟨pre ++ segs, none, ce⟩ := by
        rw [finishChunk, hlast]
        show (if |lastSeg.stop - ce| < 1/10 ∧ ¬ (ce ≥ total - 1/20) then
            StepOut.mk (pre ++ segs.dropLast) (some lastSeg) lastSeg.start
          else StepOut.mk (pre ++ segs) none ce) = _
        rw [if_neg hcond']
      refine ⟨?_, fun h => absurd h hcond, fun _ => hfc⟩
      rw [hfc]
      exact iff_of_false (by simp) hcond

/-- Witness for C2: a pending fragment is flushed when the window's first
interval starts 1 s after the window start. -/
theorem c2_carry_over_state_machine_witness :
    (0:ℚ) ≤ (Iv.mk 1 29).start ∧
    handleCarry 0 (some ⟨0, 5⟩) [⟨1, 29⟩] = ([⟨0, 5⟩], [⟨1, 29⟩]) :=
  ⟨by norm_num,
    (c2_carry_over_state_machine.2.1 0 ⟨0, 5⟩ ⟨1, 29⟩ [] (by norm_num)).2
      (by norm_num)⟩

/-- Claim C3: a detected fragment is never silently dropped.  Any last
interval of a window that (as the oracle contract ensures) ends inside the
window and reaches `totalDuration - 0.05` is never deferred and is emitted in
that very step; and a pending fragment remaining once the loop position has
reached the end of the recording is emitted as the final fragment of the
returned timeline. -/
theorem c3_no_fragment_lost :
    (∀ (vad : ℚ → ℚ → List Iv) (total dur cs : ℚ) (buf : Option Iv) (lastSeg : Iv),
      ((handleCarry cs buf
          (absShift cs (vad cs (min (cs + dur) total - cs)))).2).getLast? =
        some lastSeg →
      total - 1/20 ≤ lastSeg.stop →
      lastSeg.stop ≤ min (cs + dur) total →
      (stepChunk vad total dur cs buf).buf = none ∧
        lastSeg ∈ (stepChunk vad total dur cs buf).em) ∧
    (∀ (vad : ℚ → ℚ → List Iv) (total dur cs : ℚ) (b : Iv) (acc : List Iv)
        (fuel : Nat), ¬ cs < total →
      runAux vad total dur fuel cs (some b) acc = some (acc ++ [b]) ∧
        (acc ++ [b]).getLast? = some b) := by
  constructor
  · intro vad total dur cs buf lastSeg hlast hstop1 hstop2
    have hstep : stepChunk vad total dur cs buf =
        finishChunk total (min (cs + dur) total)
          (handleCarry cs buf (absShift cs (vad cs (min (cs + dur) total - cs)))).1
          (handleCarry cs buf (absShift cs (vad cs (min (cs + dur) total - cs)))).2 :=
      rfl
    have hend : ¬ ¬ (min (cs + dur) total ≥ total - 1/20) := by
      push_neg
      linarith
    have hfc : finishChunk total (min (cs + dur) total)
        (handleCarry cs buf (absShift cs (vad cs (min (cs + dur) total - cs)))).1
        (handleCarry cs buf (absShift cs (vad cs (min (cs + dur) total - cs)))).2 =
        ⟨(handleCarry cs buf (absShift cs (vad cs (min (cs + dur) total - cs)))).1 ++
          (handleCarry cs buf (absShift cs (vad cs (min (cs + dur) total - cs)))).2,
          none, min (cs + dur) total⟩ := by
      rw [finishChunk, hlast]
      simp only [hend, and_false, if_false]
    rw [hstep, hfc]
    exact ⟨rfl, List.mem_append_right _ (mem_of_getLast?_eq hlast)⟩
  · intro vad total dur cs b acc fuel h
    cases fuel with
    | zero => exact ⟨by rw [runAux, if_neg h]; rfl, by simp⟩
    | succ n => exact ⟨by rw [runAux, if_neg h]; rfl, by simp⟩

/-- Witness for C3: once the position has passed the recording's end, the
pending fragment is flushed as the final fragment. -/
theorem c3_no_fragment_lost_witness :
    runAux vadNil 1 30 0 1 (some (Iv.mk 0 1)) [] = some ([] ++ [Iv.mk 0 1]) ∧
    (([] : List Iv) ++ [Iv.mk 0 1]).getLast? = some (Iv.mk 0 1) :=
  c3_no_fragment_lost.2 vadNil 1 30 1 (Iv.mk 0 1) [] 0 (by norm_num)

/-- On the fully voiced recording, one loop iteration from position 1 with
pending fragment `[0, 30]` lands back at position 0 with pending `[0, 31]`:
the merged fragment starts before the current window, so the deferred next
start moves backwards and the safety valve (which only tests for equality)
does not fire. -/
theorem fullVad_step_back (n : Nat) (acc : List Iv) :
    runAux fullVad 60 30 (n + 1) 1 (some ⟨0, 30⟩) acc =
      runAux fullVad 60 30 n 0 (some ⟨0, 31⟩) acc := by
  rw [runAux]
  norm_num [stepChunk, absShift, handleCarry, finishChunk, forceAdvance, fullVad,
    min_def, abs_sub_lt_iff]

/-- On the fully voiced recording, one loop iteration from position 0 with
pending fragment `[0, 31]` defers the whole window again; the computed next
start equals the position, so the safety valve advances to 1. -/
theorem fullVad_step_forward (n : Nat) (acc : List Iv) :
    runAux fullVad 60 30 (n + 1) 0 (some ⟨0, 31⟩) acc =
      runAux fullVad 60 30 n 1 (some ⟨0, 30⟩) acc := by
  rw [runAux]
  norm_num [stepChunk, absShift, handleCarry, finishChunk, forceAdvance, fullVad,
    min_def, abs_sub_lt_iff]

/-- The first iteration of the fully voiced run defers the whole first window
and force-advances to position 1. -/
theorem fullVad_step_init (n : Nat) (acc : List Iv) :
    runAux fullVad 60 30 (n + 1) 0 none acc =
      runAux fullVad 60 30 n 1 (some ⟨0, 30⟩) acc := by
  rw [runAux]
  norm_num [stepChunk, absShift, handleCarry, finishChunk, forceAdvance, fullVad,
    min_def, abs_sub_lt_iff]

/-- The fully voiced run cycles between positions 1 and 0 for ever, emitting
nothing, whatever the fuel. -/
theorem fullVad_cycle : ∀ n : Nat,
    (∀ acc, runAux fullVad 60 30 n 1 (some ⟨0, 30⟩) acc = none) ∧
    (∀ acc, runAux fullVad 60 30 n 0 (some ⟨0, 31⟩) acc = none) := by
  intro n
  induction n with
  | zero =>
    constructor <;> intro acc <;> rw [runAux] <;> norm_num
  | succ n ih =>
    constructor
    · intro acc
      rw [fullVad_step_back]
      exact ih.2 acc
    · intro acc
      rw [fullVad_step_forward]
      exact ih.1 acc

/-- Claim C4 (code bug): `segment_with_timeline` does not terminate on a
recording whose VAD reports the whole window as speech on every call.  After
the safety valve's forced 1-second advance, the carry-over merge produces a
next window start strictly before the current one; the valve tests only for
equality, so the loop position oscillates between 0 and 1 for ever and the
loop never finishes, however much fuel it is given. -/
theorem c4_nontermination : ∀ fuel : Nat, segmentRun fullVad 60 30 fuel = none := by
  intro fuel
  cases fuel with
  | zero => rw [segmentRun, runAux]; norm_num
  | succ n =>
    rw [segmentRun, fullVad_step_init]
    exact (fullVad_cycle n).1 []

/-- Counterexample for C1: a fully contract-abiding oracle (ordered disjoint
intervals with `end > start` inside each window) produces a timeline with two
overlapping fragments.  The first window defers `[25, 29.95)` as incomplete
and rewinds to 25; the rewound window re-detects speech starting at 25.6,
which is more than 0.5 s after the window start, so the pending fragment is
flushed as its own fragment and overlaps the newly emitted `[25.6, 40)`. -/
theorem c1_counterexample :
    VadOk c1vad ∧ (0:ℚ) < 30 ∧
    segmentRun c1vad 60 30 4 =
      some [⟨10, 20⟩, ⟨25, 599/20⟩, ⟨128/5, 40⟩] ∧
    sortedByStart [⟨10, 20⟩, ⟨25, 599/20⟩, ⟨128/5, 40⟩] ∧
    ¬ pairwiseNonOverlap [⟨10, 20⟩, ⟨25, 599/20⟩, ⟨128/5, 40⟩] := by
  refine ⟨?_, by norm_num, ?_, ?_, ?_⟩
  · intro cs len
    rw [c1vad]
    by_cases h1 : cs = 0 ∧ len = 30
    · rw [if_pos h1]
      refine ⟨?_, ?_⟩
      · intro iv hiv
        rcases List.mem_cons.mp hiv with h | h
        · rw [h]; norm_num [h1.2]
        · rw [List.mem_singleton.mp h]; norm_num [h1.2]
      · simp
        norm_num
    · rw [if_neg h1]
      by_cases h2 : cs = 25 ∧ len = 30
      · rw [if_pos h2]
        refine ⟨?_, by simp⟩
        intro iv hiv
        rw [List.mem_singleton.mp hiv]
        norm_num [h2.2]
      · rw [if_neg h2]
        simp
  · norm_num [segmentRun, runAux, stepChunk, absShift, handleCarry, finishChunk,
      forceAdvance, flushBuf, c1vad, min_def, abs_lt]
  · rw [sortedByStart]
    norm_num [List.pairwise_cons]
  · rw [pairwiseNonOverlap]
    intro h
    rcases List.pairwise_cons.mp h with ⟨_, h2⟩
    rcases List.pairwise_cons.mp h2 with ⟨h3, _⟩
    have h4 := h3 ⟨128/5, 40⟩ (List.mem_singleton.mpr rfl)
    rcases h4 with h5 | h5 <;> norm_num [nonOverlap] at h5

/-- Under the oracle contract, shifted intervals lie inside
`[chunkStart, chunkEnd]` and have positive length. -/
theorem absShift_mem {vad : ℚ → ℚ → List Iv} (hvad : VadOk vad) (cs len : ℚ) :
    ∀ iv ∈ absShift cs (vad cs len),
      cs ≤ iv.start ∧ iv.start < iv.stop ∧ iv.stop ≤ cs + len := by
  intro iv hiv
  rcases List.mem_map.mp hiv with ⟨s, hs, rfl⟩
  obtain ⟨h1, h2, h3⟩ := (hvad cs len).1 s hs
  refine ⟨?_, ?_, ?_⟩
  · show cs ≤ s.start + cs
    linarith
  · show s.start + cs < s.stop + cs
    linarith
  · show s.stop + cs ≤ cs + len
    linarith

/-- Under the oracle contract, shifting preserves the ordered-disjoint shape
of a response. -/
theorem absShift_pairwise {vad : ℚ → ℚ → List Iv} (hvad : VadOk vad) (cs len : ℚ) :
    (absShift cs (vad cs len)).Pairwise (fun a b => a.stop ≤ b.start) := by
  rw [absShift, List.pairwise_map]
  refine ((hvad cs len).2).imp ?_
  intro a b hab
  show a.stop + cs ≤ b.start + cs
  linarith

/-- The deferral stage preserves the sortedness invariant, for any flushed
prefix and adjusted segment list satisfying the stated ordering facts. -/
theorem finishChunk_inv (total ce cs : ℚ) (pre segs acc : List Iv)
    (hacc : sortedByStart acc)
    (hacc_cs : ∀ f ∈ acc, f.start ≤ cs)
    (hacc_pre : ∀ f ∈ acc, ∀ p ∈ pre, f.start ≤ p.start)
    (hacc_segs : ∀ f ∈ acc, ∀ s ∈ segs, f.start ≤ s.start)
    (hpre : sortedByStart pre)
    (hpre_cs : ∀ p ∈ pre, p.start ≤ cs)
    (hpre_segs : ∀ p ∈ pre, ∀ s ∈ segs, p.start ≤ s.start)
    (hsegs : ∀ s ∈ segs, s.start < s.stop ∧ s.stop ≤ ce)
    (hsegs_pw : segs.Pairwise (fun a b => a.stop ≤ b.start))
    (hce : cs < ce) :
    StInv (forceAdvance cs (finishChunk total ce pre segs).next)
      ((finishChunk total ce pre segs).buf)
      (acc ++ (finishChunk total ce pre segs).em) := by
  have hsegs_start : segs.Pairwise (fun a b => a.start ≤ b.start) := by
    refine hsegs_pw.imp_of_mem ?_
    intro a b ha _ hab
    have := (hsegs a ha).1
    linarith
  cases hlast : segs.getLast? with
  | none =>
    have hnil : segs = [] := by
      cases segs with
      | nil => rfl
      | cons y ys =>
        rw [List.getLast?_eq_getLast (y :: ys) (List.cons_ne_nil y ys)] at hlast
        simp at hlast
    subst hnil
    have hfc : finishChunk total ce pre [] = ⟨pre, none, ce⟩ := rfl
    rw [hfc]
    have hfa : forceAdvance cs ce = ce := by
      rw [forceAdvance, if_neg (ne_of_gt hce)]
    rw [hfa]
    refine ⟨?_, ?_, ?_⟩
    · rw [sortedByStart, List.pairwise_append]
      exact ⟨hacc, hpre, hacc_pre⟩
    · intro f hf
      rcases List.mem_append.mp hf with h | h
      · linarith [hacc_cs f h]
      · linarith [hpre_cs f h]
    · intro b hb
      simp at hb
  | some lastSeg =>
    have hlast_mem : lastSeg ∈ segs := mem_of_getLast?_eq hlast
    have hdrop_stop : ∀ x ∈ segs.dropLast, x.stop ≤ lastSeg.start :=
      rel_getLast_of_pairwise hlast hsegs_pw
    by_cases hcond : |lastSeg.stop - ce| < 1/10 ∧ ¬ (ce ≥ total - 1/20)
    · have hfc : finishChunk total ce pre segs =
          ⟨pre ++ segs.dropLast, some lastSeg, lastSeg.start⟩ := by
        rw [finishChunk, hlast]
        show (if |lastSeg.stop - ce| < 1/10 ∧ ¬ (ce ≥ total - 1/20) then
            StepOut.mk (pre ++ segs.dropLast) (some lastSeg) lastSeg.start
          else StepOut.mk (pre ++ segs) none ce) = _
        rw [if_pos hcond]
      rw [hfc]
      have hnc_ge : lastSeg.start ≤ forceAdvance cs lastSeg.start := by
        by_cases hfa : lastSeg.start = cs
        · rw [forceAdvance, if_pos hfa]
          linarith [hfa.le]
        · rw [forceAdvance, if_neg hfa]
      have hstarts : ∀ f ∈ acc ++ (pre ++ segs.dropLast),
          f.start ≤ lastSeg.start := by
        intro f hf
        rcases List.mem_append.mp hf with h | h
        · exact hacc_segs f h lastSeg hlast_mem
        · rcases List.mem_append.mp h with h | h
          · exact hpre_segs f h lastSeg hlast_mem
          · have hl1 := (hsegs f (List.mem_of_mem_dropLast h)).1
            have hl2 := hdrop_stop f h
            linarith
      refine ⟨?_, ?_, ?_⟩
      · rw [sortedByStart, List.pairwise_append]
        refine ⟨hacc, ?_, ?_⟩
        · rw [List.pairwise_append]
          refine ⟨hpre, List.Pairwise.sublist (List.dropLast_sublist segs) hsegs_start,
            fun p hp s hs => hpre_segs p hp s (List.mem_of_mem_dropLast hs)⟩
        · intro f hf b hb
          rcases List.mem_append.mp hb with h | h
          · exact hacc_pre f hf b h
          · exact hacc_segs f hf b (List.mem_of_mem_dropLast h)
      · intro f hf
        exact le_trans (hstarts f hf) hnc_ge
      · intro b hb
        injection hb with hb2
        subst hb2
        exact ⟨hstarts, hnc_ge⟩
    · have hfc : finishChunk total ce pre segs = ⟨pre ++ segs, none, ce⟩ := by
        rw [finishChunk, hlast]
        show (if |lastSeg.stop - ce| < 1/10 ∧ ¬ (ce ≥ total - 1/20) then
            StepOut.mk (pre ++ segs.dropLast) (some lastSeg) lastSeg.start
          else StepOut.mk (pre ++ segs) none ce) = _
        rw [if_neg hcond]
      rw [hfc]
      have hfa : forceAdvance cs ce = ce := by
        rw [forceAdvance, if_neg (ne_of_gt hce)]
      rw [hfa]
      refine ⟨?_, ?_, ?_⟩
      · rw [sortedByStart, List.pairwise_append]
        refine ⟨hacc, ?_, ?_⟩
        · rw [List.pairwise_append]
          exact ⟨hpre, hsegs_start, hpre_segs⟩
        · intro f hf b hb
          rcases List.mem_append.mp hb with h | h
          · exact hacc_pre f hf b h
          · exact hacc_segs f hf b h
      · intro f hf
        rcases List.mem_append.mp hf with h | h
        · linarith [hacc_cs f h]
        · rcases List.mem_append.mp h with h | h
          · linarith [hpre_cs f h]
          · have hb := hsegs f h
            linarith [hb.1, hb.2]
      · intro b hb
        simp at hb

/-- The carry-over stage followed by the deferral stage preserves the
sortedness invariant, for intervals satisfying the oracle-contract bounds. -/
theorem carry_finish_inv (total ce cs : ℚ) (b? : Option Iv) (segs acc : List Iv)
    (hacc : sortedByStart acc)
    (hacc_cs : ∀ f ∈ acc, f.start ≤ cs)
    (hbuf : ∀ b, b? = some b → (∀ f ∈ acc, f.start ≤ b.start) ∧ b.start ≤ cs)
    (hsegs : ∀ s ∈ segs, cs ≤ s.start ∧ s.start < s.stop ∧ s.stop ≤ ce)
    (hsegs_pw : segs.Pairwise (fun a b => a.stop ≤ b.start))
    (hce : cs < ce) :
    StInv (forceAdvance cs (finishChunk total ce (handleCarry cs b? segs).1
        (handleCarry cs b? segs).2).next)
      ((finishChunk total ce (handleCarry cs b? segs).1
        (handleCarry cs b? segs).2).buf)
      (acc ++ (finishChunk total ce (handleCarry cs b? segs).1
        (handleCarry cs b? segs).2).em) := by
  cases b? with
  | none =>
    have hhc : handleCarry cs none segs = ([], segs) := rfl
    rw [hhc]
    exact finishChunk_inv total ce cs [] segs acc hacc hacc_cs (by simp)
      (fun f hf s hs => le_trans (hacc_cs f hf) (hsegs s hs).1)
      (by rw [sortedByStart]; exact List.Pairwise.nil) (by simp) (by simp)
      (fun s hs => ⟨(hsegs s hs).2.1, (hsegs s hs).2.2⟩) hsegs_pw hce
  | some b =>
    obtain ⟨hab, hbcs⟩ := hbuf b rfl
    cases segs with
    | nil =>
      have hhc : handleCarry cs (some b) [] = ([b], []) := rfl
      rw [hhc]
      refine finishChunk_inv total ce cs [b] [] acc hacc hacc_cs ?_ ?_ ?_ ?_ ?_ ?_ ?_ hce
      · intro f hf p hp
        rw [List.mem_singleton.mp hp]
        exact hab f hf
      · intro f hf s hs
        simp at hs
      · rw [sortedByStart]
        exact List.pairwise_singleton _ _
      · intro p hp
        rw [List.mem_singleton.mp hp]
        exact hbcs
      · intro p hp s hs
        simp at hs
      · intro s hs
        simp at hs
      · exact List.Pairwise.nil
    | cons s0 rest =>
      obtain ⟨hs0_cs, hs0_lt, hs0_ce⟩ := hsegs s0 (List.mem_cons_self s0 rest)
      have hrest : ∀ s ∈ rest, cs ≤ s.start ∧ s.start < s.stop ∧ s.stop ≤ ce :=
        fun s hs => hsegs s (List.mem_cons_of_mem s0 hs)
      rcases List.pairwise_cons.mp hsegs_pw with ⟨hs0_rest, hrest_pw⟩
      by_cases hm : s0.start - cs < 1/2
      · have hhc : handleCarry cs (some b) (s0 :: rest) =
            ([], Iv.mk b.start s0.stop :: rest) := by
          show (if s0.start - cs < 1/2 then ([], Iv.mk b.start s0.stop :: rest)
            else ([b], s0 :: rest)) = _
          rw [if_pos hm]
        rw [hhc]
        refine finishChunk_inv total ce cs [] (Iv.mk b.start s0.stop :: rest) acc
          hacc hacc_cs (by simp) ?_
          (by rw [sortedByStart]; exact List.Pairwise.nil) (by simp) (by simp)
          ?_ ?_ hce
        · intro f hf s hs
          rcases List.mem_cons.mp hs with h | h
          · rw [h]
            exact hab f hf
          · exact le_trans (hacc_cs f hf) (hrest s h).1
        · intro s hs
          rcases List.mem_cons.mp hs with h | h
          · rw [h]
            constructor
            · show b.start < s0.stop
              linarith
            · show s0.stop ≤ ce
              exact hs0_ce
          · exact ⟨(hrest s h).2.1, (hrest s h).2.2⟩
        · rw [List.pairwise_cons]
          constructor
          · intro a ha
            show s0.stop ≤ a.start
            exact hs0_rest a ha
          · exact hrest_pw
      · have hhc : handleCarry cs (some b) (s0 :: rest) = ([b], s0 :: rest) := by
          show (if s0.start - cs < 1/2 then ([], Iv.mk b.start s0.stop :: rest)
            else ([b], s0 :: rest)) = _
          rw [if_neg hm]
        rw [hhc]
        refine finishChunk_inv total ce cs [b] (s0 :: rest) acc hacc hacc_cs
          ?_ ?_ ?_ ?_ ?_ ?_ hsegs_pw hce
        · intro f hf p hp
          rw [List.mem_singleton.mp hp]
          exact hab f hf
        · intro f hf s hs
          exact le_trans (hacc_cs f hf) (hsegs s hs).1
        · rw [sortedByStart]
          exact List.pairwise_singleton _ _
        · intro p hp
          rw [List.mem_singleton.mp hp]
          exact hbcs
        · intro p hp s hs
          rw [List.mem_singleton.mp hp]
          exact le_trans hbcs (hsegs s hs).1
        · intro s hs
          exact ⟨(hsegs s hs).2.1, (hsegs s hs).2.2⟩

/-- One chunk iteration preserves the sortedness invariant. -/
theorem stepChunk_preserves (vad : ℚ → ℚ → List Iv) (hvad : VadOk vad)
    (total dur cs : ℚ) (hdur : 0 < dur) (hcs : cs < total) (buf : Option Iv)
    (acc : List Iv) (hinv : StInv cs buf acc) :
    StInv (forceAdvance cs (stepChunk vad total dur cs buf).next)
      ((stepChunk vad total dur cs buf).buf)
      (acc ++ (stepChunk vad total dur cs buf).em) := by
  obtain ⟨h1, h2, h3⟩ := hinv
  have hce : cs < min (cs + dur) total := lt_min (by linarith) hcs
  have hmem := absShift_mem hvad cs (min (cs + dur) total - cs)
  have hpw := absShift_pairwise hvad cs (min (cs + dur) total - cs)
  have hstep : stepChunk vad total dur cs buf =
      finishChunk total (min (cs + dur) total)
        (handleCarry cs buf (absShift cs (vad cs (min (cs + dur) total - cs)))).1
        (handleCarry cs buf (absShift cs (vad cs (min (cs + dur) total - cs)))).2 :=
    rfl
  rw [hstep]
  refine carry_finish_inv total (min (cs + dur) total) cs buf
    (absShift cs (vad cs (min (cs + dur) total - cs))) acc h1 h2 h3 ?_ hpw hce
  intro s hs
  obtain ⟨hb1, hb2, hb3⟩ := hmem s hs
  exact ⟨hb1, hb2, by linarith⟩

/-- The loop carries the sortedness invariant through to the returned
timeline, final buffer flush included. -/
theorem runAux_sorted (vad : ℚ → ℚ → List Iv) (hvad : VadOk vad) (total dur : ℚ)
    (hdur : 0 < dur) :
    ∀ (fuel : Nat) (cs : ℚ) (buf : Option Iv) (acc tl : List Iv),
      StInv cs buf acc → runAux vad total dur fuel cs buf acc = some tl →
      sortedByStart tl := by
  have hexit : ∀ (cs : ℚ) (buf : Option Iv) (acc : List Iv), StInv cs buf acc →
      sortedByStart (acc ++ flushBuf buf) := by
    intro cs buf acc hinv
    cases buf with
    | none => simpa [flushBuf] using hinv.1
    | some b =>
      show sortedByStart (acc ++ [b])
      rw [sortedByStart, List.pairwise_append]
      refine ⟨hinv.1, List.pairwise_singleton _ _, ?_⟩
      intro f hf p hp
      rw [List.mem_singleton.mp hp]
      exact (hinv.2.2 b rfl).1 f hf
  intro fuel
  induction fuel with
  | zero =>
    intro cs buf acc tl hinv h
    rw [runAux] at h
    by_cases hcs : cs < total
    · rw [if_pos hcs] at h
      exact absurd h (by simp)
    · rw [if_neg hcs] at h
      injection h with h2
      rw [← h2]
      exact hexit cs buf acc hinv
  | succ n ih =>
    intro cs buf acc tl hinv h
    rw [runAux] at h
    by_cases hcs : cs < total
    · rw [if_pos hcs] at h
      exact ih (forceAdvance cs (stepChunk vad total dur cs buf).next)
        ((stepChunk vad total dur cs buf).buf)
        (acc ++ (stepChunk vad total dur cs buf).em) tl
        (stepChunk_preserves vad hvad total dur cs hdur hcs buf acc hinv) h
    · rw [if_neg hcs] at h
      injection h with h2
      rw [← h2]
      exact hexit cs buf acc hinv

/-- Claim C1 (amended): under the oracle contract (ordered disjoint intervals
with `end > start` inside each window) and `chunkDuration > 0`, every timeline
returned by the segmenter is sorted by `start`; pairwise non-overlap of the
`[start, end)` intervals does not hold in general (see the counterexample: a
deferred pending fragment flushed after a rewind can overlap a re-detected
interval of the reprocessed window). -/
theorem c1_timeline_sorted (vad : ℚ → ℚ → List Iv) (hvad : VadOk vad)
    (total dur : ℚ) (hdur : 0 < dur) (fuel : Nat) (tl : List Iv)
    (h : segmentRun vad total dur fuel = some tl) : sortedByStart tl :=
  runAux_sorted vad hvad total dur hdur fuel 0 none [] tl
    ⟨by rw [sortedByStart]; exact List.Pairwise.nil, by simp, by simp⟩ h

/-- Witness for C1: the silent oracle on a 1-second recording returns the
empty, trivially sorted timeline. -/
theorem c1_timeline_sorted_witness :
    VadOk vadNil ∧ (0:ℚ) < 30 ∧ sortedByStart [] :=
  ⟨fun cs len => ⟨by simp [vadNil], by simp [vadNil]⟩, by norm_num,
    c1_timeline_sorted vadNil
      (fun cs len => ⟨by simp [vadNil], by simp [vadNil]⟩) 1 30 (by norm_num) 1 []
      (by norm_num [segmentRun, runAux, stepChunk, absShift, handleCarry,
        finishChunk, forceAdvance, flushBuf, vadNil, min_def])⟩
